import Mathlib

/-! Verification of the Teacher Notes synthesis engine of the
    canvas-quiz-pipeline repository.

    Strings are modelled as lists of characters (`Str`).  The JavaScript
    global regular-expression replace loops of the source are modelled by
    fueled scanners (`stepScan` / `runScan`): at every position the scanner
    either fires a step (consuming the matched text and emitting its
    replacement, exactly like `String.prototype.replace` advancing past a
    match) or emits the current character and advances by one (like the
    regex engine retrying at the next index after a failed match). -/

namespace CanvasNotes

set_option maxRecDepth 20000

abbrev Str := List Char

/-- Model of the JavaScript whitespace class `\s` (also the character set
    removed by `String.prototype.trim`). -/
def jsIsSpace (c : Char) : Bool :=
  c == ' ' || c == '\t' || c == '\n' || c.toNat == 11 || c.toNat == 12 ||
  c == '\r' || c.toNat == 0xa0 || c.toNat == 0x1680 ||
  (0x2000 ≤ c.toNat && c.toNat ≤ 0x200a) || c.toNat == 0x2028 ||
  c.toNat == 0x2029 || c.toNat == 0x202f || c.toNat == 0x205f ||
  c.toNat == 0x3000 || c.toNat == 0xfeff

/-- ASCII model of JavaScript `toLowerCase` on one character. -/
def lcChar (c : Char) : Char :=
  if 'A' ≤ c ∧ c ≤ 'Z' then Char.ofNat (c.toNat + 32) else c

/-- ASCII model of JavaScript `toUpperCase` on one character. -/
def ucChar (c : Char) : Char :=
  if 'a' ≤ c ∧ c ≤ 'z' then Char.ofNat (c.toNat - 32) else c

def lowerStr (l : Str) : Str := l.map lcChar

def upperStr (l : Str) : Str := l.map ucChar

/-- Case-insensitive equality of two character lists. -/
def eqCI : Str → Str → Bool
  | [], [] => true
  | a :: as, b :: bs => lcChar a == lcChar b && eqCI as bs
  | _, _ => false

/-- Whether `l` starts with `pat`, case-insensitively. -/
def startsWithCI (pat l : Str) : Bool := eqCI pat (l.take pat.length)

/-- Whether `l` starts with `pat` (case-sensitive). -/
def startsWithStr (pat l : Str) : Bool := pat == l.take pat.length

/-- Model of `String.prototype.includes` (case-sensitive substring test). -/
def occursIn (pat : Str) : Str → Bool
  | [] => pat == []
  | c :: rest => startsWithStr pat (c :: rest) || occursIn pat rest

/-- Drop everything up to and past the first case-insensitive occurrence of
    `pat`; `none` when `pat` does not occur. -/
def dropPastCI (pat : Str) : Str → Option Str
  | [] => none
  | c :: rest =>
    if startsWithCI pat (c :: rest) then some ((c :: rest).drop pat.length)
    else dropPastCI pat rest

/-- Fueled scanner modelling one global regular-expression replace pass.
    `step` inspects the current suffix: `some (rep, rem)` means the regex
    matches here, `rep` is the replacement text and `rem` the text after the
    match; `none` means no match at this position. -/
def stepScan (step : Str → Option (Str × Str)) : Nat → Str → Str
  | 0, l => l
  | _ + 1, [] => []
  | fuel + 1, c :: rest =>
    match step (c :: rest) with
    | some (rep, rem) => rep ++ stepScan step fuel rem
    | none => c :: stepScan step fuel rest

def runScan (step : Str → Option (Str × Str)) (l : Str) : Str :=
  stepScan step l.length l

/-- A step is well formed when the remainder after a match is a sublist of
    the scanned tail, so each fired match consumes at least one character. -/
def StepOk (step : Str → Option (Str × Str)) : Prop :=
  ∀ c rest rep rem, step (c :: rest) = some (rep, rem) → rem.Sublist rest

theorem stepScan_fuel {step : Str → Option (Str × Str)} (hs : StepOk step) :
    ∀ n fuel l, l.length ≤ n → l.length ≤ fuel →
      stepScan step fuel l = stepScan step l.length l := by
  intro n
  induction n with
  | zero =>
    intro fuel l hn hf
    have : l = [] := List.length_eq_zero.mp (Nat.le_zero.mp hn)
    subst this
    cases fuel <;> rfl
  | succ n ih =>
    intro fuel l hn hf
    match l with
    | [] => cases fuel <;> rfl
    | c :: rest =>
      match fuel, hf with
      | fuel + 1, hf =>
        have hrn : rest.length ≤ n := by simpa using hn
        have hrf : rest.length ≤ fuel := by simpa using hf
        show stepScan step (fuel + 1) (c :: rest) =
          stepScan step (rest.length + 1) (c :: rest)
        cases hstep : step (c :: rest) with
        | none =>
          simp only [stepScan, hstep]
          rw [ih fuel rest hrn hrf, ih rest.length rest hrn le_rfl]
        | some pr =>
          obtain ⟨rep, rem⟩ := pr
          have hlen : rem.length ≤ rest.length :=
            (hs c rest rep rem hstep).length_le
          simp only [stepScan, hstep]
          rw [ih fuel rem (le_trans hlen hrn) (le_trans hlen hrf),
            ih rest.length rem (le_trans hlen hrn) hlen]

theorem runScan_nil {step : Str → Option (Str × Str)} : runScan step [] = [] := rfl

theorem runScan_cons {step : Str → Option (Str × Str)} (hs : StepOk step)
    (c : Char) (rest : Str) :
    runScan step (c :: rest) =
      match step (c :: rest) with
      | some (rep, rem) => rep ++ runScan step rem
      | none => c :: runScan step rest := by
  show stepScan step (c :: rest).length (c :: rest) = _
  cases hstep : step (c :: rest) with
  | none =>
    simp only [List.length_cons, stepScan, hstep]
    rw [stepScan_fuel hs rest.length rest.length rest le_rfl le_rfl]
    rfl
  | some pr =>
    obtain ⟨rep, rem⟩ := pr
    have hlen : rem.length ≤ rest.length := (hs c rest rep rem hstep).length_le
    simp only [List.length_cons, stepScan, hstep]
    rw [stepScan_fuel hs rest.length rest.length rem hlen hlen]
    rfl

/-- Characters of a scan output either come from the input or satisfy the
    property `S` guaranteed for all replacement texts. -/
theorem mem_runScan {step : Str → Option (Str × Str)} (hs : StepOk step)
    {S : Char → Prop}
    (hrep : ∀ c rest rep rem, step (c :: rest) = some (rep, rem) → ∀ x ∈ rep, S x) :
    ∀ l, ∀ x ∈ runScan step l, x ∈ l ∨ S x := by
  have main : ∀ n l, l.length ≤ n → ∀ x ∈ runScan step l, x ∈ l ∨ S x := by
    intro n
    induction n with
    | zero =>
      intro l hl x hx
      have : l = [] := List.length_eq_zero.mp (Nat.le_zero.mp hl)
      subst this
      rw [runScan_nil] at hx
      exact absurd hx (List.not_mem_nil x)
    | succ n ih =>
      intro l hl x hx
      match l with
      | [] =>
        rw [runScan_nil] at hx
        exact absurd hx (List.not_mem_nil x)
      | c :: rest =>
        have hrn : rest.length ≤ n := by simpa using hl
        rw [runScan_cons hs] at hx
        cases hstep : step (c :: rest) with
        | none =>
          rw [hstep] at hx
          rcases List.mem_cons.mp hx with h | h
          · exact Or.inl (h ▸ List.mem_cons_self c rest)
          · rcases ih rest hrn x h with h2 | h2
            · exact Or.inl (List.mem_cons_of_mem c h2)
            · exact Or.inr h2
        | some pr =>
          obtain ⟨rep, rem⟩ := pr
          rw [hstep] at hx
          rcases List.mem_append.mp hx with h | h
          · exact Or.inr (hrep c rest rep rem hstep x h)
          · have hsub : rem.Sublist rest := hs c rest rep rem hstep
            rcases ih rem (le_trans hsub.length_le hrn) x h with h2 | h2
            · exact Or.inl (List.mem_cons_of_mem c (hsub.mem h2))
            · exact Or.inr h2
  intro l
  exact main l.length l le_rfl

/-- A scan whose step fires on no suffix of `l` is the identity on `l`. -/
theorem runScan_id {step : Str → Option (Str × Str)} (hs : StepOk step) :
    ∀ l, (∀ c rest, (c :: rest).IsSuffix l → step (c :: rest) = none) →
      runScan step l = l := by
  have main : ∀ n l, l.length ≤ n →
      (∀ c rest, (c :: rest).IsSuffix l → step (c :: rest) = none) →
      runScan step l = l := by
    intro n
    induction n with
    | zero =>
      intro l hl _
      have : l = [] := List.length_eq_zero.mp (Nat.le_zero.mp hl)
      subst this
      exact runScan_nil
    | succ n ih =>
      intro l hl hno
      match l with
      | [] => exact runScan_nil
      | c :: rest =>
        have hrn : rest.length ≤ n := by simpa using hl
        have hstep : step (c :: rest) = none :=
          hno c rest (List.suffix_refl _)
        rw [runScan_cons hs, hstep]
        have : runScan step rest = rest := by
          refine ih rest hrn ?_
          intro d tail hsuf
          exact hno d tail (hsuf.trans (List.suffix_cons c rest))
        rw [this]
  intro l hno
  exact main l.length l le_rfl hno

/-! Concrete steps for the regular-expression passes of `toPlainText`
    (source: `toPlainText`, `decodeHtmlEntities`, `escapeHtml`). -/

/-- Match of the tail of the global regex `<[^>]+>` after the leading "<":
    a nonempty run of characters other than ">" closed by ">"; returns the
    text after the match. -/
def tagSplit (rest : Str) : Option Str :=
  if rest.takeWhile (fun c => c != '>') = [] then none
  else
    match rest.dropWhile (fun c => c != '>') with
    | '>' :: rem => some rem
    | _ => none

/-- Step of the pass `.replace(/<[^>]+>/g, " ")`. -/
def tagStep (l : Str) : Option (Str × Str) :=
  match l with
  | c :: rest =>
    if c = '<' then (tagSplit rest).map (fun rem => ([' '], rem)) else none
  | [] => none

/-- Step of the lazy block passes `.replace(/<style[\s\S]*?<\/style>/gi, " ")`
    and `.replace(/<script[\s\S]*?<\/script>/gi, " ")`: at a case-insensitive
    occurrence of the opening text, the match extends to the first
    case-insensitive occurrence of the closing text. -/
def enclosedStep (openPat closePat : Str) (l : Str) : Option (Str × Str) :=
  if startsWithCI openPat l then
    (dropPastCI closePat (l.drop openPat.length)).map (fun rem => ([' '], rem))
  else none

/-- Step of the pass `.replace(/<br\s*\/?>/gi, "\n")`. -/
def brStep (l : Str) : Option (Str × Str) :=
  if startsWithCI "<br".data l then
    match (l.drop 3).dropWhile jsIsSpace with
    | '/' :: '>' :: rem => some (['\n'], rem)
    | '>' :: rem => some (['\n'], rem)
    | _ => none
  else none

def blockTags : List Str :=
  ["p".data, "li".data, "h1".data, "h2".data, "h3".data, "h4".data,
   "h5".data, "h6".data, "div".data]

/-- Step of the pass `.replace(/<\/(p|li|h1|h2|h3|h4|h5|h6|div)>/gi, "\n")`. -/
def blockCloseStep (l : Str) : Option (Str × Str) :=
  match blockTags.find? (fun nm => startsWithCI ("</".data ++ nm ++ ">".data) l) with
  | some nm => some (['\n'], l.drop (nm.length + 3))
  | none => none

/-- Step of the pass `.replace(/\s+/g, " ")` (`SPACE_RE`). -/
def spaceStep (l : Str) : Option (Str × Str) :=
  match l with
  | c :: rest =>
    if jsIsSpace c then some ([' '], rest.dropWhile jsIsSpace) else none
  | [] => none

/-- Model of `.replace(SPACE_RE, " ")`. -/
def collapseWs (l : Str) : Str := runScan spaceStep l

/-- Model of `String.prototype.trim`. -/
def trimWs (l : Str) : Str :=
  ((l.dropWhile jsIsSpace).reverse.dropWhile jsIsSpace).reverse

/-- Model of `.replace(SPACE_RE, " ").trim()`, the normalisation used all
    over the source. -/
def normWs (l : Str) : Str := trimWs (collapseWs l)

/-- The five tag-stripping passes of `toPlainText`, in source order:
    style, script, br, block-closing tags, then all remaining tags. -/
def stripHtmlTags (html : Str) : Str :=
  runScan tagStep
    (runScan blockCloseStep
      (runScan brStep
        (runScan (enclosedStep "<script".data "</script>".data)
          (runScan (enclosedStep "<style".data "</style>".data) html))))

theorem tagSplit_sublist {rest rem : Str} (h : tagSplit rest = some rem) :
    rem.Sublist rest := by
  unfold tagSplit at h
  split at h
  · exact absurd h (by simp)
  · split at h
    · next rem2 heq =>
      injection h with h1
      subst h1
      have h2 : rem2.Sublist (rest.dropWhile (fun c => c != '>')) := by
        rw [heq]
        exact List.sublist_cons_self _ _
      exact h2.trans (List.dropWhile_sublist _)
    · exact absurd h (by simp)

theorem tagStep_ok : StepOk tagStep := by
  intro c rest rep rem h
  simp only [tagStep] at h
  split at h
  · cases hts : tagSplit rest with
    | none => rw [hts] at h; exact absurd h (by simp)
    | some rem0 =>
      rw [hts] at h
      simp only [Option.map_some'] at h
      injection h with h1
      have h2 : rem0 = rem := congrArg Prod.snd h1
      exact h2 ▸ tagSplit_sublist hts
  · exact absurd h (by simp)

theorem dropPastCI_sublist {pat : Str} :
    ∀ {l rem : Str}, dropPastCI pat l = some rem → rem.Sublist l := by
  intro l
  induction l with
  | nil => intro rem h; exact absurd h (by simp [dropPastCI])
  | cons c rest ih =>
    intro rem h
    unfold dropPastCI at h
    split at h
    · injection h with h
      rw [← h]
      exact List.drop_sublist _ _
    · exact (ih h).trans (List.sublist_cons_self c rest)

theorem enclosedStep_ok (openPat closePat : Str) (hne : openPat ≠ []) :
    StepOk (enclosedStep openPat closePat) := by
  intro c rest rep rem h
  unfold enclosedStep at h
  split at h
  · cases hd : dropPastCI closePat ((c :: rest).drop openPat.length) with
    | none => rw [hd] at h; exact absurd h (by simp)
    | some rem0 =>
      rw [hd] at h
      simp only [Option.map_some'] at h
      injection h with h1
      have h2 : rem0 = rem := congrArg Prod.snd h1
      subst h2
      have h3 := dropPastCI_sublist hd
      match openPat, hne with
      | p :: ps, _ =>
        simp only [List.length_cons, List.drop_succ_cons] at h3
        exact h3.trans (List.drop_sublist _ _)
  · exact absurd h (by simp)

theorem brStep_ok : StepOk brStep := by
  intro c rest rep rem h
  unfold brStep at h
  split at h
  · have hsub : ((c :: rest).drop 3).dropWhile jsIsSpace |>.Sublist rest := by
      have h1 : (c :: rest).drop 3 = rest.drop 2 := by
        simp [List.drop_succ_cons]
      rw [h1]
      exact (List.dropWhile_sublist _).trans (List.drop_sublist _ _)
    split at h
    · next rem2 heq =>
      injection h with h1
      have h2 : rem2 = rem := congrArg Prod.snd h1
      subst h2
      refine List.Sublist.trans ?_ hsub
      rw [heq]
      exact (List.sublist_cons_self _ _).trans (List.sublist_cons_self _ _)
    · next rem2 heq =>
      injection h with h1
      have h2 : rem2 = rem := congrArg Prod.snd h1
      subst h2
      refine List.Sublist.trans ?_ hsub
      rw [heq]
      exact List.sublist_cons_self _ _
    · exact absurd h (by simp)
  · exact absurd h (by simp)

theorem blockCloseStep_ok : StepOk blockCloseStep := by
  intro c rest rep rem h
  unfold blockCloseStep at h
  split at h
  · next nm _ =>
    injection h with h1
    have h2 : (c :: rest).drop (nm.length + 3) = rem := congrArg Prod.snd h1
    rw [← h2]
    have h1 : (c :: rest).drop (nm.length + 3) = rest.drop (nm.length + 2) := by
      have h3 : nm.length + 3 = (nm.length + 2) + 1 := by omega
      rw [h3, List.drop_succ_cons]
    rw [h1]
    exact List.drop_sublist _ _
  · exact absurd h (by simp)

theorem spaceStep_ok : StepOk spaceStep := by
  intro c rest rep rem h
  simp only [spaceStep] at h
  split at h
  · injection h with h1
    have h2 : rest.dropWhile jsIsSpace = rem := congrArg Prod.snd h1
    rw [← h2]
    exact List.dropWhile_sublist _
  · exact absurd h (by simp)

/-! Entity decoding (`decodeHtmlEntities`). -/

def isDigitCh (c : Char) : Bool := '0' ≤ c && c ≤ '9'

def isHexDigit (c : Char) : Bool :=
  isDigitCh c || ('a' ≤ c && c ≤ 'f') || ('A' ≤ c && c ≤ 'F')

def isAsciiAlpha (c : Char) : Bool :=
  ('a' ≤ c && c ≤ 'z') || ('A' ≤ c && c ≤ 'Z')

def hexDigitVal (c : Char) : Nat :=
  if isDigitCh c then c.toNat - 48
  else if 'a' ≤ c && c ≤ 'f' then c.toNat - 87
  else c.toNat - 55

def hexVal (l : Str) : Nat := l.foldl (fun acc c => 16 * acc + hexDigitVal c) 0

def decVal (l : Str) : Nat := l.foldl (fun acc c => 10 * acc + (c.toNat - 48)) 0

/-- The fixed named-entity table of the decoder. -/
def namedEntity (key : Str) : Option Str :=
  if key = "amp".data then some "&".data
  else if key = "lt".data then some "<".data
  else if key = "gt".data then some ">".data
  else if key = "quot".data then some [Char.ofNat 34]
  else if key = "apos".data then some [Char.ofNat 39]
  else if key = "nbsp".data then some " ".data
  else if key = "ndash".data then some "-".data
  else if key = "mdash".data then some "-".data
  else if key = "rsquo".data then some [Char.ofNat 39]
  else if key = "lsquo".data then some [Char.ofNat 39]
  else if key = "ldquo".data then some [Char.ofNat 34]
  else if key = "rdquo".data then some [Char.ofNat 34]
  else if key = "times".data then some "x".data
  else none

/-- Parse the text after "&" against the tail of the entity regex
    `&(#x?[0-9a-f]+|[a-z]+);` (case-insensitive): returns the matched
    entity text (between "&" and ";") and the remainder after ";". -/
def entityBody (r : Str) : Option (Str × Str) :=
  match r with
  | '#' :: r2 =>
    match r2 with
    | c :: r3 =>
      if lcChar c = 'x' then
        let digs := r3.takeWhile isHexDigit
        if digs = [] then none
        else
          match r3.drop digs.length with
          | ';' :: rem => some ('#' :: c :: digs, rem)
          | _ => none
      else
        let digs := r2.takeWhile isHexDigit
        if digs = [] then none
        else
          match r2.drop digs.length with
          | ';' :: rem => some ('#' :: digs, rem)
          | _ => none
    | [] => none
  | _ =>
    let digs := r.takeWhile isAsciiAlpha
    if digs = [] then none
    else
      match r.drop digs.length with
      | ';' :: rem => some (digs, rem)
      | _ => none

/-- Model of `String.fromCodePoint` on one code point: `none` models the
    RangeError raised for values above 0x10FFFF.  JavaScript accepts
    lone-surrogate code points (`Char.ofNat` maps those to a default
    character; no claim in this development depends on that value). -/
def fromCodePoint (n : Nat) : Option Str :=
  if n ≤ 0x10ffff then some [Char.ofNat n] else none

/-- Replacement decision of the decoder callback for a matched entity text;
    `none` models a thrown RangeError.  `parseInt` prefix semantics: the
    decimal branch parses the longest leading digit run and yields NaN
    (keep the match unchanged) when it is empty. -/
def entityRep (ent : Str) : Option Str :=
  let key := lowerStr ent
  match key with
  | '#' :: kk =>
    match kk with
    | 'x' :: hexDigs => fromCodePoint (hexVal hexDigs)
    | _ =>
      let dp := kk.takeWhile isDigitCh
      if dp = [] then some ('&' :: (ent ++ [';']))
      else fromCodePoint (decVal dp)
  | _ =>
    match namedEntity key with
    | some rep => some rep
    | none => some ('&' :: (ent ++ [';']))

/-- Step of the decoder scan: the outer `Option` is the match decision, the
    inner `Option Str` the replacement (or a thrown RangeError, `none`). -/
def entityStep (l : Str) : Option (Option Str × Str) :=
  match l with
  | c :: r =>
    if c = '&' then (entityBody r).map (fun pr => (entityRep pr.1, pr.2)) else none
  | [] => none

def decodeScan : Nat → Str → Option Str
  | 0, l => some l
  | _ + 1, [] => some []
  | fuel + 1, c :: rest =>
    match entityStep (c :: rest) with
    | some (res, rem) =>
      match res with
      | some rep => (decodeScan fuel rem).map (fun t => rep ++ t)
      | none => none
    | none => (decodeScan fuel rest).map (fun t => c :: t)

/-- Model of `decodeHtmlEntities`; `none` models a thrown RangeError. -/
def decodeHtmlEntities (input : Str) : Option Str :=
  decodeScan input.length input

/-- Model of `toPlainText`; `none` models a thrown RangeError escaping from
    the entity decoder. -/
def toPlainText (html : Str) : Option Str :=
  (decodeHtmlEntities (stripHtmlTags html)).map (fun t => trimWs (collapseWs t))

/-- Step of one `.replace(/c/g, rep)` pass of `escapeHtml`. -/
def charStep (target : Char) (rep : Str) (l : Str) : Option (Str × Str) :=
  match l with
  | c :: rest => if c = target then some (rep, rest) else none
  | [] => none

/-- Model of `escapeHtml`: five sequential global replaces, ampersand
    first. -/
def escapeHtml (input : Str) : Str :=
  runScan (charStep (Char.ofNat 39) "&#39;".data)
    (runScan (charStep (Char.ofNat 34) "&quot;".data)
      (runScan (charStep '>' "&gt;".data)
        (runScan (charStep '<' "&lt;".data)
          (runScan (charStep '&' "&amp;".data) input))))

theorem charStep_ok (target : Char) (rep : Str) : StepOk (charStep target rep) := by
  intro c rest rp rem h
  simp only [charStep] at h
  split at h
  · injection h with h1
    have h2 : rest = rem := congrArg Prod.snd h1
    exact h2 ▸ List.Sublist.refl rem
  · exact absurd h (by simp)


/-! Tag-freeness.  `hasTag l` decides whether `l` contains a substring of
    the shape "<", a nonempty run of characters other than ">", then ">"
    (a match of the regex `<[^>]+>`). -/

def hasTag : Str → Bool
  | [] => false
  | c :: rest =>
    (if c = '<' then (tagSplit rest).isSome else false) || hasTag rest

theorem toNat_ofNat_valid {n : Nat} (h : n.isValidChar) :
    (Char.ofNat n).toNat = n := by
  rw [Char.ofNat, dif_pos h]
  rfl

/-- Lowercasing cannot produce a character below code point 97, so a
    non-letter below that code point is fixed by `lcChar` in both
    directions. -/
theorem lcChar_fixed_symbol {c d : Char} (hd : d.toNat < 97)
    (h : lcChar c = d) : c = d := by
  unfold lcChar at h
  split at h
  · next hc =>
    exfalso
    have h65 : 65 ≤ c.toNat := by
      have h1 := hc.1
      simp [Char.le_def, UInt32.le_def, BitVec.le_def] at h1
      exact h1
    have h90 : c.toNat ≤ 90 := by
      have h1 := hc.2
      simp [Char.le_def, UInt32.le_def, BitVec.le_def] at h1
      exact h1
    have hv : (c.toNat + 32).isValidChar := Or.inl (by omega)
    have h2 := congrArg Char.toNat h
    rw [toNat_ofNat_valid hv] at h2
    omega
  · exact h

theorem takeWhile_neq_gt_append {mid post : Str} (h : '>' ∉ mid) :
    (mid ++ '>' :: post).takeWhile (fun c => c != '>') = mid := by
  induction mid with
  | nil => simp [List.takeWhile_cons]
  | cons x xs ih =>
    have hx : x ≠ '>' := fun he => h (he ▸ List.mem_cons_self x xs)
    have hxs : '>' ∉ xs := fun hm => h (List.mem_cons_of_mem x hm)
    simp [List.takeWhile_cons, hx, ih hxs]

theorem dropWhile_neq_gt_append {mid post : Str} (h : '>' ∉ mid) :
    (mid ++ '>' :: post).dropWhile (fun c => c != '>') = '>' :: post := by
  induction mid with
  | nil => simp [List.dropWhile_cons]
  | cons x xs ih =>
    have hx : x ≠ '>' := fun he => h (he ▸ List.mem_cons_self x xs)
    have hxs : '>' ∉ xs := fun hm => h (List.mem_cons_of_mem x hm)
    simp [List.dropWhile_cons, hx, ih hxs]

theorem tagSplit_isSome_of {mid post : Str} (hne : mid ≠ []) (hnm : '>' ∉ mid) :
    (tagSplit (mid ++ '>' :: post)).isSome = true := by
  unfold tagSplit
  rw [takeWhile_neq_gt_append hnm, dropWhile_neq_gt_append hnm, if_neg hne]
  simp

theorem tagSplit_decomp {rest rem : Str} (h : tagSplit rest = some rem) :
    ∃ mid, rest = mid ++ '>' :: rem ∧ mid ≠ [] ∧ '>' ∉ mid := by
  unfold tagSplit at h
  split at h
  · exact absurd h (by simp)
  · next hne =>
    split at h
    · next rem2 heq =>
      injection h with h1
      subst h1
      refine ⟨rest.takeWhile (fun c => c != '>'), ?_, hne, ?_⟩
      · conv_lhs => rw [← List.takeWhile_append_dropWhile (p := fun c => c != '>') (l := rest)]
        rw [heq]
      · intro hmem
        have h2 := List.mem_takeWhile_imp hmem
        simp at h2
    · exact absurd h (by simp)

theorem gt_split {rest : Str} (h : '>' ∈ rest) :
    ∃ tk rm, rest = tk ++ '>' :: rm ∧ '>' ∉ tk := by
  induction rest with
  | nil => exact absurd h (List.not_mem_nil _)
  | cons c rpt ih =>
    by_cases hc : c = '>'
    · exact ⟨[], rpt, by rw [hc]; rfl, by simp⟩
    · rcases List.mem_cons.mp h with h1 | h1
      · exact absurd h1.symm hc
      · obtain ⟨tk, rm, hd, hn⟩ := ih h1
        refine ⟨c :: tk, rm, by simp [hd], ?_⟩
        intro hm
        rcases List.mem_cons.mp hm with h2 | h2
        · exact hc h2.symm
        · exact hn h2

theorem tagSplit_none_head_gt {rest : Str} (h : tagSplit rest = none)
    (hmem : '>' ∈ rest) : ∃ rm, rest = '>' :: rm := by
  obtain ⟨tk, rm, hdecomp, hnotin⟩ := gt_split hmem
  cases tk with
  | nil => exact ⟨rm, by simpa using hdecomp⟩
  | cons t ts =>
    have h2 : (tagSplit rest).isSome = true := by
      rw [hdecomp]
      exact tagSplit_isSome_of (by simp) hnotin
    rw [h] at h2
    simp at h2

theorem hasTag_of_decomp {pre mid post : Str} (hne : mid ≠ []) (hnm : '>' ∉ mid) :
    hasTag (pre ++ '<' :: (mid ++ '>' :: post)) = true := by
  induction pre with
  | nil =>
    show hasTag ('<' :: (mid ++ '>' :: post)) = true
    unfold hasTag
    rw [if_pos rfl, tagSplit_isSome_of hne hnm]
    simp
  | cons p ps ih =>
    show hasTag (p :: (ps ++ '<' :: (mid ++ '>' :: post))) = true
    unfold hasTag
    rw [ih]
    simp

theorem hasTag_decomp {l : Str} (h : hasTag l = true) :
    ∃ pre mid post, l = pre ++ '<' :: (mid ++ '>' :: post) ∧ mid ≠ [] ∧ '>' ∉ mid := by
  induction l with
  | nil => simp [hasTag] at h
  | cons c rest ih =>
    unfold hasTag at h
    rcases Bool.or_eq_true_iff.mp h with h1 | h1
    · by_cases hc : c = '<'
      · rw [if_pos hc] at h1
        subst hc
        obtain ⟨rem, hrem⟩ := Option.isSome_iff_exists.mp h1
        obtain ⟨mid, hdec, hne, hnm⟩ := tagSplit_decomp hrem
        exact ⟨[], mid, rem, by rw [hdec]; rfl, hne, hnm⟩
      · rw [if_neg hc] at h1
        exact absurd h1 (by simp)
    · obtain ⟨pre, mid, post, hd, hne, hnm⟩ := ih h1
      exact ⟨c :: pre, mid, post, by rw [List.cons_append, hd], hne, hnm⟩

theorem hasTag_of_middle {a t b : Str} (h : hasTag t = true) :
    hasTag (a ++ t ++ b) = true := by
  obtain ⟨pre, mid, post, hd, hne, hnm⟩ := hasTag_decomp h
  have h2 : a ++ t ++ b = (a ++ pre) ++ '<' :: (mid ++ '>' :: (post ++ b)) := by
    rw [hd]
    simp [List.append_assoc]
  rw [h2]
  exact hasTag_of_decomp hne hnm

theorem hasTag_false_infix {l a t b : Str} (hl : hasTag l = false)
    (hd : l = a ++ t ++ b) : hasTag t = false := by
  by_contra hc
  rw [Bool.not_eq_false] at hc
  have h2 := hasTag_of_middle (a := a) (b := b) hc
  rw [← hd, hl] at h2
  exact Bool.false_ne_true h2

theorem hasTag_false_suffix {l s : Str} (hl : hasTag l = false)
    (hs : s.IsSuffix l) : hasTag s = false := by
  obtain ⟨a, ha⟩ := hs
  exact hasTag_false_infix hl (a := a) (t := s) (b := [])
    (by rw [List.append_nil]; exact ha.symm)

theorem hasTag_false_tail {c : Char} {rest : Str}
    (h : hasTag (c :: rest) = false) : hasTag rest = false :=
  hasTag_false_suffix h (List.suffix_cons c rest)

/-! Inversion lemmas for the scanner steps. -/

theorem tagStep_inv {c : Char} {rest rep rem : Str}
    (h : tagStep (c :: rest) = some (rep, rem)) :
    c = '<' ∧ rep = [' '] ∧ tagSplit rest = some rem := by
  simp only [tagStep] at h
  split at h
  · next hc =>
    cases hts : tagSplit rest with
    | none => rw [hts] at h; exact absurd h (by simp)
    | some rem0 =>
      rw [hts] at h
      simp only [Option.map_some'] at h
      injection h with h1
      rw [Prod.mk.injEq] at h1
      exact ⟨hc, h1.1.symm, congrArg some h1.2⟩
  · exact absurd h (by simp)

theorem spaceStep_inv {c : Char} {rest rep rem : Str}
    (h : spaceStep (c :: rest) = some (rep, rem)) :
    jsIsSpace c = true ∧ rep = [' '] ∧ rem = rest.dropWhile jsIsSpace := by
  simp only [spaceStep] at h
  split at h
  · next hc =>
    injection h with h1
    rw [Prod.mk.injEq] at h1
    exact ⟨hc, h1.1.symm, h1.2.symm⟩
  · exact absurd h (by simp)

theorem enclosedStep_inv {openPat closePat l rep rem : Str}
    (h : enclosedStep openPat closePat l = some (rep, rem)) :
    startsWithCI openPat l = true ∧ rep = [' '] ∧
      dropPastCI closePat (l.drop openPat.length) = some rem := by
  unfold enclosedStep at h
  split at h
  · next hst =>
    cases hd : dropPastCI closePat (l.drop openPat.length) with
    | none => rw [hd] at h; exact absurd h (by simp)
    | some rem0 =>
      rw [hd] at h
      simp only [Option.map_some'] at h
      injection h with h1
      rw [Prod.mk.injEq] at h1
      exact ⟨hst, h1.1.symm, congrArg some h1.2⟩
  · exact absurd h (by simp)

theorem brStep_inv {l rep rem : Str} (h : brStep l = some (rep, rem)) :
    startsWithCI "<br".data l = true ∧ rep = ['\n'] ∧
      ((l.drop 3).dropWhile jsIsSpace = '/' :: '>' :: rem ∨
       (l.drop 3).dropWhile jsIsSpace = '>' :: rem) := by
  unfold brStep at h
  split at h
  · next hst =>
    split at h
    · next rem2 heq =>
      injection h with h1
      rw [Prod.mk.injEq] at h1
      exact ⟨hst, h1.1.symm, Or.inl (by rw [heq, h1.2])⟩
    · next rem2 heq =>
      injection h with h1
      rw [Prod.mk.injEq] at h1
      exact ⟨hst, h1.1.symm, Or.inr (by rw [heq, h1.2])⟩
    · exact absurd h (by simp)
  · exact absurd h (by simp)

theorem blockCloseStep_inv {l rep rem : Str}
    (h : blockCloseStep l = some (rep, rem)) :
    ∃ nm, nm ∈ blockTags ∧
      startsWithCI ("</".data ++ nm ++ ">".data) l = true ∧ rep = ['\n'] ∧
      rem = l.drop (nm.length + 3) := by
  unfold blockCloseStep at h
  split at h
  · next nm hfind =>
    have hmem := List.mem_of_find?_eq_some hfind
    have hpred := List.find?_some hfind
    injection h with h1
    rw [Prod.mk.injEq] at h1
    exact ⟨nm, hmem, hpred, h1.1.symm, h1.2.symm⟩
  · exact absurd h (by simp)

theorem tagStep_rep : ∀ c rest rep rem,
    tagStep (c :: rest) = some (rep, rem) → rep = [' '] ∨ rep = ['\n'] :=
  fun _ _ _ _ h => Or.inl (tagStep_inv h).2.1

theorem spaceStep_rep : ∀ c rest rep rem,
    spaceStep (c :: rest) = some (rep, rem) → rep = [' '] ∨ rep = ['\n'] :=
  fun _ _ _ _ h => Or.inl (spaceStep_inv h).2.1

theorem brStep_rep : ∀ c rest rep rem,
    brStep (c :: rest) = some (rep, rem) → rep = [' '] ∨ rep = ['\n'] :=
  fun _ _ _ _ h => Or.inr (brStep_inv h).2.1

theorem blockCloseStep_rep : ∀ c rest rep rem,
    blockCloseStep (c :: rest) = some (rep, rem) → rep = [' '] ∨ rep = ['\n'] := by
  intro c rest rep rem h
  obtain ⟨nm, _, _, hrep, _⟩ := blockCloseStep_inv h
  exact Or.inr hrep

theorem enclosedStep_rep (openPat closePat : Str) : ∀ c rest rep rem,
    enclosedStep openPat closePat (c :: rest) = some (rep, rem) →
    rep = [' '] ∨ rep = ['\n'] :=
  fun _ _ _ _ h => Or.inl (enclosedStep_inv h).2.1

theorem runScan_mem_space_newline {step : Str → Option (Str × Str)}
    (hok : StepOk step)
    (hinv : ∀ c rest rep rem, step (c :: rest) = some (rep, rem) →
      rep = [' '] ∨ rep = ['\n'])
    {l : Str} {x : Char} (h : x ∈ runScan step l) : x ∈ l ∨ x = ' ' ∨ x = '\n' := by
  refine mem_runScan hok (S := fun y => y = ' ' ∨ y = '\n') ?_ l x h
  intro c rest rep rem hs y hy
  rcases hinv c rest rep rem hs with h1 | h1 <;> subst h1 <;>
    simp at hy <;> simp [hy]

theorem mem_stripHtmlTags {l : Str} {x : Char} (h : x ∈ stripHtmlTags l) :
    x ∈ l ∨ x = ' ' ∨ x = '\n' := by
  unfold stripHtmlTags at h
  rcases runScan_mem_space_newline tagStep_ok tagStep_rep h with h | h
  · rcases runScan_mem_space_newline blockCloseStep_ok blockCloseStep_rep h with h | h
    · rcases runScan_mem_space_newline brStep_ok brStep_rep h with h | h
      · rcases runScan_mem_space_newline
          (enclosedStep_ok _ _ (by decide)) (enclosedStep_rep _ _) h with h | h
        · rcases runScan_mem_space_newline
            (enclosedStep_ok _ _ (by decide)) (enclosedStep_rep _ _) h with h | h
          · exact Or.inl h
          · exact Or.inr h
        · exact Or.inr h
      · exact Or.inr h
    · exact Or.inr h
  · exact Or.inr h

theorem mem_collapseWs {l : Str} {x : Char} (h : x ∈ collapseWs l) :
    x ∈ l ∨ x = ' ' := by
  refine mem_runScan spaceStep_ok (S := fun y => y = ' ') ?_ l x h
  intro c rest rep rem hs y hy
  rw [(spaceStep_inv hs).2.1] at hy
  simpa using hy

theorem trimWs_sublist (l : Str) : (trimWs l).Sublist l := by
  unfold trimWs
  have h1 : ((l.dropWhile jsIsSpace).reverse.dropWhile jsIsSpace).Sublist
      (l.dropWhile jsIsSpace).reverse := List.dropWhile_sublist _
  have h2 := h1.reverse
  rw [List.reverse_reverse] at h2
  exact h2.trans (List.dropWhile_sublist _)

/-! A fired match of any tag-stripping pass exhibits a tag substring. -/

theorem eqCI_cons_shape {p : Char} {ps m : Str} (h : eqCI (p :: ps) m = true) :
    ∃ x xs, m = x :: xs ∧ lcChar x = lcChar p ∧ eqCI ps xs = true := by
  cases m with
  | nil => simp [eqCI] at h
  | cons x xs =>
    simp only [eqCI, Bool.and_eq_true, beq_iff_eq] at h
    exact ⟨x, xs, rfl, h.1.symm, h.2⟩

theorem jsSpace_ne_gt {q : Char} (h : jsIsSpace q = true) : q ≠ '>' := by
  intro he
  subst he
  exact absurd h (by decide)

theorem eqCI_gtEnd_shape : ∀ (inner m : Str),
    (∀ p ∈ inner, lcChar p ≠ '>') → eqCI (inner ++ ['>']) m = true →
    ∃ minner, m = minner ++ ['>'] ∧ minner.length = inner.length ∧ '>' ∉ minner := by
  intro inner
  induction inner with
  | nil =>
    intro m _ h
    obtain ⟨x, xs, hm, hx, hrest⟩ := eqCI_cons_shape h
    have hx2 : x = '>' := by
      have h3 : lcChar x = '>' := by rw [hx]; decide
      exact lcChar_fixed_symbol (by decide) h3
    cases xs with
    | nil => exact ⟨[], by simp [hm, hx2], rfl, by simp⟩
    | cons y ys => simp [eqCI] at hrest
  | cons p ps ih =>
    intro m hptr h
    rw [List.cons_append] at h
    obtain ⟨x, xs, hm, hx, hrest⟩ := eqCI_cons_shape h
    have hpne : lcChar p ≠ '>' := hptr p (List.mem_cons_self _ _)
    have hxne : x ≠ '>' := by
      intro he
      rw [he] at hx
      have h3 : lcChar '>' = '>' := by decide
      exact hpne (by rw [← hx]; exact h3)
    obtain ⟨minner, hm2, hlen, hnot⟩ :=
      ih xs (fun q hq => hptr q (List.mem_cons_of_mem _ hq)) hrest
    refine ⟨x :: minner, by rw [hm, hm2]; rfl, by simp [hlen], ?_⟩
    intro hc
    rcases List.mem_cons.mp hc with h2 | h2
    · exact hxne h2.symm
    · exact hnot h2

theorem eqCI_tag_decomp {inner m : Str} (hne : inner ≠ [])
    (hin : ∀ p ∈ inner, lcChar p ≠ '>')
    (h : eqCI ('<' :: (inner ++ ['>'])) m = true) :
    ∃ minner, m = '<' :: (minner ++ ['>']) ∧ minner ≠ [] ∧ '>' ∉ minner := by
  obtain ⟨x, xs, hm, hx, hrest⟩ := eqCI_cons_shape h
  have hx2 : x = '<' := by
    have h3 : lcChar x = '<' := by rw [hx]; decide
    exact lcChar_fixed_symbol (by decide) h3
  obtain ⟨minner, hm2, hlen, hnot⟩ := eqCI_gtEnd_shape inner xs hin hrest
  refine ⟨minner, by rw [hm, hx2, hm2], ?_, hnot⟩
  intro hc
  apply hne
  rw [hc] at hlen
  exact (List.length_eq_zero.mp hlen.symm)

theorem dropPastCI_decomp {pat : Str} : ∀ {l rem : Str},
    dropPastCI pat l = some rem →
    ∃ pre mseg, l = pre ++ mseg ++ rem ∧ eqCI pat mseg = true := by
  intro l
  induction l with
  | nil => intro rem h; simp [dropPastCI] at h
  | cons c rest ih =>
    intro rem h
    unfold dropPastCI at h
    split at h
    · next hst =>
      injection h with h1
      refine ⟨[], (c :: rest).take pat.length, ?_, hst⟩
      rw [List.nil_append, ← h1, List.take_append_drop]
    · next hst =>
      obtain ⟨pre, mseg, hsp, hci⟩ := ih h
      exact ⟨c :: pre, mseg, by simp [hsp], hci⟩

theorem hasTag_suffix_mono {l s : Str} (hs : s.IsSuffix l)
    (h : hasTag s = true) : hasTag l = true := by
  obtain ⟨a, ha⟩ := hs
  have h2 := hasTag_of_middle (a := a) (b := []) h
  rwa [List.append_nil, ha] at h2

theorem hasTag_of_enclosed_fire {openPat inner l rep rem : Str}
    (hinne : inner ≠ []) (hin : ∀ p ∈ inner, lcChar p ≠ '>')
    (h : enclosedStep openPat ('<' :: (inner ++ ['>'])) l = some (rep, rem)) :
    hasTag l = true := by
  obtain ⟨_, _, hd⟩ := enclosedStep_inv h
  obtain ⟨pre, mseg, hsplit, hci⟩ := dropPastCI_decomp hd
  obtain ⟨minner, hmeq, hmne, hmnot⟩ := eqCI_tag_decomp hinne hin hci
  have h2 : hasTag (l.drop openPat.length) = true := by
    rw [hsplit, hmeq]
    have h3 : pre ++ ('<' :: (minner ++ ['>'])) ++ rem =
        pre ++ '<' :: (minner ++ '>' :: rem) := by simp
    rw [h3]
    exact hasTag_of_decomp hmne hmnot
  exact hasTag_suffix_mono (List.drop_suffix _ _) h2

theorem hasTag_of_blockClose_fire {l rep rem : Str}
    (h : blockCloseStep l = some (rep, rem)) : hasTag l = true := by
  obtain ⟨nm, hnm, hst, _, _⟩ := blockCloseStep_inv h
  have hpat : "</".data ++ nm ++ ">".data = '<' :: (('/' :: nm) ++ ['>']) := rfl
  rw [hpat] at hst
  have hchars : ∀ p ∈ ('/' :: nm), lcChar p ≠ '>' := by
    intro p hp
    rcases List.mem_cons.mp hp with h2 | h2
    · subst h2; decide
    · have hall : ∀ q ∈ blockTags.flatten, lcChar q ≠ '>' := by decide
      exact hall p (List.mem_flatten.mpr ⟨nm, hnm, h2⟩)
  obtain ⟨minner, hmeq, hmne, hmnot⟩ := eqCI_tag_decomp (by simp) hchars hst
  have hl : l = l.take ('<' :: (('/' :: nm) ++ ['>'])).length ++
      l.drop ('<' :: (('/' :: nm) ++ ['>'])).length := (List.take_append_drop _ _).symm
  rw [hmeq] at hl
  have h3 : ('<' :: (minner ++ ['>'])) ++
        l.drop ('<' :: (('/' :: nm) ++ ['>'])).length =
      '<' :: (minner ++ '>' :: l.drop ('<' :: (('/' :: nm) ++ ['>'])).length) := by
    rw [List.cons_append, List.append_assoc, List.singleton_append]
  rw [h3] at hl
  rw [hl]
  exact @hasTag_of_decomp [] _ _ hmne hmnot

theorem hasTag_of_br_fire {l rep rem : Str} (h : brStep l = some (rep, rem)) :
    hasTag l = true := by
  obtain ⟨hst, _, hcase⟩ := brStep_inv h
  obtain ⟨x, xs, hm, hx, hr1⟩ := eqCI_cons_shape (p := '<') hst
  obtain ⟨y, ys, hm2, hy, hr2⟩ := eqCI_cons_shape hr1
  obtain ⟨z, zs, hm3, hz, hr3⟩ := eqCI_cons_shape hr2
  have hzs : zs = [] := by
    cases zs with
    | nil => rfl
    | cons w ws => simp [eqCI] at hr3
  have hx2 : x = '<' := by
    have h3 : lcChar x = '<' := by rw [hx]; decide
    exact lcChar_fixed_symbol (by decide) h3
  have hyne : y ≠ '>' := by
    intro he
    rw [he] at hy
    exact absurd hy (by decide)
  have hzne : z ≠ '>' := by
    intro he
    rw [he] at hz
    exact absurd hz (by decide)
  have htk : l.take 3 = x :: y :: z :: [] := by
    have h4 : l.take "<br".data.length = x :: y :: z :: [] := by
      rw [hm, hm2, hm3, hzs]
    exact h4
  have hws : ∀ q ∈ (l.drop 3).takeWhile jsIsSpace, q ≠ '>' := by
    intro q hq
    exact jsSpace_ne_gt (List.mem_takeWhile_imp hq)
  have hdsplit : l.drop 3 = (l.drop 3).takeWhile jsIsSpace ++
      (l.drop 3).dropWhile jsIsSpace := (List.takeWhile_append_dropWhile _ _).symm
  have hltot : l = l.take 3 ++ l.drop 3 := (List.take_append_drop _ _).symm
  rcases hcase with hcase | hcase
  · have hl2 : l = [] ++ '<' ::
        ((y :: z :: ((l.drop 3).takeWhile jsIsSpace ++ ['/'])) ++ '>' :: rem) := by
      rw [List.nil_append]
      conv_lhs => rw [hltot, htk, hdsplit, hcase]
      rw [hx2]
      simp
    rw [hl2]
    refine hasTag_of_decomp (by simp) ?_
    intro hc
    rcases List.mem_cons.mp hc with h2 | h2
    · exact hyne h2.symm
    rcases List.mem_cons.mp h2 with h3 | h3
    · exact hzne h3.symm
    rcases List.mem_append.mp h3 with h4 | h4
    · exact hws _ h4 rfl
    · simp at h4
  · have hl2 : l = [] ++ '<' ::
        ((y :: z :: (l.drop 3).takeWhile jsIsSpace) ++ '>' :: rem) := by
      rw [List.nil_append]
      conv_lhs => rw [hltot, htk, hdsplit, hcase]
      rw [hx2]
      simp
    rw [hl2]
    refine hasTag_of_decomp (by simp) ?_
    intro hc
    rcases List.mem_cons.mp hc with h2 | h2
    · exact hyne h2.symm
    rcases List.mem_cons.mp h2 with h3 | h3
    · exact hzne h3.symm
    · exact hws _ h3 rfl

/-! The generic tag-stripping pass leaves no tag substring, and the
    whitespace passes cannot create one. -/

theorem tagStep_none_of_ne {c : Char} {rest : Str} (hc : c ≠ '<') :
    tagStep (c :: rest) = none := by
  simp [tagStep, hc]

theorem spaceStep_none_of_not {c : Char} {rest : Str} (hc : jsIsSpace c = false) :
    spaceStep (c :: rest) = none := by
  simp [spaceStep, hc]

theorem tagStep_none_tagSplit {rest : Str}
    (h : tagStep ('<' :: rest) = none) : tagSplit rest = none := by
  have h2 : (tagSplit rest).map (fun rem => (([' '] : Str), rem)) = none := by
    simpa [tagStep] using h
  cases hts : tagSplit rest with
  | none => rfl
  | some r0 => rw [hts] at h2; simp at h2

theorem hasTag_of_tagStep_fire {c : Char} {rest rep rem : Str}
    (h : tagStep (c :: rest) = some (rep, rem)) : hasTag (c :: rest) = true := by
  obtain ⟨hc, _, hts⟩ := tagStep_inv h
  subst hc
  unfold hasTag
  rw [if_pos rfl, hts]
  simp

theorem hasTag_runScan_tagStep (l : Str) : hasTag (runScan tagStep l) = false := by
  have main : ∀ n l, List.length l ≤ n → hasTag (runScan tagStep l) = false := by
    intro n
    induction n with
    | zero =>
      intro l hl
      have : l = [] := List.length_eq_zero.mp (Nat.le_zero.mp hl)
      subst this
      rw [runScan_nil]
      rfl
    | succ n ih =>
      intro l hl
      match l with
      | [] => rw [runScan_nil]; rfl
      | c :: rest =>
        have hrn : rest.length ≤ n := by simpa using hl
        rw [runScan_cons tagStep_ok]
        cases hstep : tagStep (c :: rest) with
        | some pr =>
          obtain ⟨rep, rem⟩ := pr
          obtain ⟨hc, hrep, hts⟩ := tagStep_inv hstep
          subst hrep
          have hrem : rem.Sublist rest := tagStep_ok _ _ _ _ hstep
          have ih2 := ih rem (le_trans hrem.length_le hrn)
          show hasTag (' ' :: runScan tagStep rem) = false
          unfold hasTag
          rw [if_neg (by decide), ih2]
          rfl
        | none =>
          show hasTag (c :: runScan tagStep rest) = false
          have ih2 := ih rest hrn
          unfold hasTag
          rw [ih2]
          by_cases hc : c = '<'
          · subst hc
            rw [if_pos rfl]
            have htsrest : tagSplit rest = none := tagStep_none_tagSplit hstep
            cases hts3 : tagSplit (runScan tagStep rest) with
            | none => rfl
            | some r1 =>
              exfalso
              obtain ⟨mid, hdec, hmne, hmnot⟩ := tagSplit_decomp hts3
              have hgt_mem : '>' ∈ runScan tagStep rest := by
                rw [hdec]
                exact List.mem_append.mpr (Or.inr (List.mem_cons_self _ _))
              have hgt_orig : '>' ∈ rest := by
                rcases runScan_mem_space_newline tagStep_ok tagStep_rep hgt_mem with h2 | h2
                · exact h2
                · rcases h2 with h2 | h2 <;> exact absurd h2 (by decide)
              obtain ⟨rm, hrm⟩ := tagSplit_none_head_gt htsrest hgt_orig
              have hrun : runScan tagStep rest = '>' :: runScan tagStep rm := by
                rw [hrm, runScan_cons tagStep_ok, tagStep_none_of_ne (by decide)]
              rw [hrun] at hdec
              cases mid with
              | nil => exact hmne rfl
              | cons m0 ms =>
                rw [List.cons_append] at hdec
                injection hdec with h5 h6
                exact hmnot (by rw [← h5]; exact List.mem_cons_self _ _)
          · rw [if_neg hc]
            rfl
  exact main l.length l le_rfl

theorem hasTag_collapseWs_reflect : ∀ {l : Str},
    hasTag (collapseWs l) = true → hasTag l = true := by
  have main : ∀ n l, List.length l ≤ n →
      hasTag (collapseWs l) = true → hasTag l = true := by
    intro n
    induction n with
    | zero =>
      intro l hl h
      have : l = [] := List.length_eq_zero.mp (Nat.le_zero.mp hl)
      subst this
      exact absurd h (by decide)
    | succ n ih =>
      intro l hl h
      match l with
      | [] => exact absurd h (by decide)
      | c :: rest =>
        have hrn : rest.length ≤ n := by simpa using hl
        unfold collapseWs at h
        rw [runScan_cons spaceStep_ok] at h
        cases hstep : spaceStep (c :: rest) with
        | some pr =>
          obtain ⟨rep, rem⟩ := pr
          rw [hstep] at h
          obtain ⟨hws, hrep, hrem⟩ := spaceStep_inv hstep
          subst hrep
          replace h : hasTag (' ' :: runScan spaceStep rem) = true := h
          unfold hasTag at h
          rw [if_neg (by decide)] at h
          simp only [Bool.false_or] at h
          have h2 := ih rem
            (by rw [hrem]; exact le_trans (List.dropWhile_sublist _).length_le hrn) h
          have h3 : hasTag rest = true := by
            refine hasTag_suffix_mono ?_ h2
            rw [hrem]
            exact List.dropWhile_suffix _
          exact hasTag_suffix_mono (List.suffix_cons c rest) h3
        | none =>
          rw [hstep] at h
          replace h : hasTag (c :: runScan spaceStep rest) = true := h
          unfold hasTag at h
          rcases Bool.or_eq_true_iff.mp h with h1 | h1
          · by_cases hc : c = '<'
            · rw [if_pos hc] at h1
              subst hc
              obtain ⟨r1, hr1⟩ := Option.isSome_iff_exists.mp h1
              obtain ⟨mid, hdec, hmne, hmnot⟩ := tagSplit_decomp hr1
              have hgt_mem : '>' ∈ collapseWs rest := by
                show '>' ∈ runScan spaceStep rest
                rw [hdec]
                exact List.mem_append.mpr (Or.inr (List.mem_cons_self _ _))
              have hgt_orig : '>' ∈ rest := by
                rcases mem_collapseWs hgt_mem with h2 | h2
                · exact h2
                · exact absurd h2 (by decide)
              cases hts2 : tagSplit rest with
              | some r2 =>
                unfold hasTag
                rw [if_pos rfl, hts2]
                simp
              | none =>
                exfalso
                obtain ⟨rm, hrm⟩ := tagSplit_none_head_gt hts2 hgt_orig
                have hrun : runScan spaceStep rest = '>' :: runScan spaceStep rm := by
                  rw [hrm, runScan_cons spaceStep_ok, spaceStep_none_of_not (by decide)]
                rw [hrun] at hdec
                cases mid with
                | nil => exact hmne rfl
                | cons m0 ms =>
                  rw [List.cons_append] at hdec
                  injection hdec with h5 h6
                  exact hmnot (by rw [← h5]; exact List.mem_cons_self _ _)
            · rw [if_neg hc] at h1
              exact absurd h1 (by simp)
          · exact hasTag_suffix_mono (List.suffix_cons c rest) (ih rest hrn h1)
  intro l
  exact main l.length l le_rfl

theorem trimWs_middle (l : Str) : ∃ a b, l = a ++ trimWs l ++ b := by
  refine ⟨l.takeWhile jsIsSpace,
    ((l.dropWhile jsIsSpace).reverse.takeWhile jsIsSpace).reverse, ?_⟩
  have h1 : l.dropWhile jsIsSpace = trimWs l ++
      ((l.dropWhile jsIsSpace).reverse.takeWhile jsIsSpace).reverse := by
    unfold trimWs
    conv_lhs => rw [← List.reverse_reverse (l.dropWhile jsIsSpace)]
    conv_lhs =>
      rw [← List.takeWhile_append_dropWhile (p := jsIsSpace)
        (l := (l.dropWhile jsIsSpace).reverse)]
    rw [List.reverse_append]
  conv_lhs => rw [← List.takeWhile_append_dropWhile (p := jsIsSpace) (l := l), h1]
  rw [List.append_assoc]

theorem hasTag_trimWs_reflect {l : Str} (h : hasTag (trimWs l) = true) :
    hasTag l = true := by
  obtain ⟨a, b, hab⟩ := trimWs_middle l
  rw [hab]
  exact hasTag_of_middle h

/-! On a tag-free string every tag-stripping pass is the identity. -/

theorem runScan_enclosed_id {openPat inner : Str} (hone : openPat ≠ [])
    (hinne : inner ≠ []) (hin : ∀ p ∈ inner, lcChar p ≠ '>') {l : Str}
    (hl : hasTag l = false) :
    runScan (enclosedStep openPat ('<' :: (inner ++ ['>']))) l = l := by
  refine runScan_id (enclosedStep_ok _ _ hone) l ?_
  intro c rest hsuf
  cases hstep : enclosedStep openPat ('<' :: (inner ++ ['>'])) (c :: rest) with
  | none => rfl
  | some pr =>
    exfalso
    obtain ⟨rep, rem⟩ := pr
    have h2 := hasTag_of_enclosed_fire hinne hin hstep
    have h3 := hasTag_false_suffix hl hsuf
    rw [h2] at h3
    exact Bool.false_ne_true h3.symm

theorem runScan_style_id {l : Str} (hl : hasTag l = false) :
    runScan (enclosedStep "<style".data "</style>".data) l = l :=
  @runScan_enclosed_id "<style".data "/style".data
    (by decide) (by decide) (by decide) _ hl

theorem runScan_script_id {l : Str} (hl : hasTag l = false) :
    runScan (enclosedStep "<script".data "</script>".data) l = l :=
  @runScan_enclosed_id "<script".data "/script".data
    (by decide) (by decide) (by decide) _ hl

theorem runScan_br_id {l : Str} (hl : hasTag l = false) :
    runScan brStep l = l := by
  refine runScan_id brStep_ok l ?_
  intro c rest hsuf
  cases hstep : brStep (c :: rest) with
  | none => rfl
  | some pr =>
    exfalso
    obtain ⟨rep, rem⟩ := pr
    have h2 := hasTag_of_br_fire hstep
    have h3 := hasTag_false_suffix hl hsuf
    rw [h2] at h3
    exact Bool.false_ne_true h3.symm

theorem runScan_blockClose_id {l : Str} (hl : hasTag l = false) :
    runScan blockCloseStep l = l := by
  refine runScan_id blockCloseStep_ok l ?_
  intro c rest hsuf
  cases hstep : blockCloseStep (c :: rest) with
  | none => rfl
  | some pr =>
    exfalso
    obtain ⟨rep, rem⟩ := pr
    have h2 := hasTag_of_blockClose_fire hstep
    have h3 := hasTag_false_suffix hl hsuf
    rw [h2] at h3
    exact Bool.false_ne_true h3.symm

theorem runScan_tag_id {l : Str} (hl : hasTag l = false) :
    runScan tagStep l = l := by
  refine runScan_id tagStep_ok l ?_
  intro c rest hsuf
  cases hstep : tagStep (c :: rest) with
  | none => rfl
  | some pr =>
    exfalso
    obtain ⟨rep, rem⟩ := pr
    have h2 := hasTag_of_tagStep_fire hstep
    have h3 := hasTag_false_suffix hl hsuf
    rw [h2] at h3
    exact Bool.false_ne_true h3.symm

theorem stripHtmlTags_id {l : Str} (hl : hasTag l = false) :
    stripHtmlTags l = l := by
  unfold stripHtmlTags
  rw [runScan_style_id hl, runScan_script_id hl, runScan_br_id hl,
    runScan_blockClose_id hl, runScan_tag_id hl]

/-! Idempotence of the whitespace normalisation `.replace(SPACE_RE, " ").trim()`. -/

/-- After collapsing, every whitespace character is a single space and no
    two whitespace characters are adjacent. -/
def NoRunWs (l : Str) : Prop :=
  (∀ c ∈ l, jsIsSpace c = true → c = ' ') ∧
  l.Chain' (fun a b => ¬(jsIsSpace a = true ∧ jsIsSpace b = true))

theorem dropWhile_cons_head {p : Char → Bool} {l : Str} {c : Char} {rest : Str}
    (h : l.dropWhile p = c :: rest) : p c = false := by
  induction l with
  | nil => simp at h
  | cons x xs ih =>
    rw [List.dropWhile_cons] at h
    split at h
    · exact ih h
    · next hx =>
      injection h with h1 h2
      subst h1
      simpa using hx

theorem collapseWs_nil : collapseWs [] = [] := rfl

theorem collapseWs_cons_head {c : Char} {rest : Str} (hc : jsIsSpace c = false) :
    collapseWs (c :: rest) = c :: collapseWs rest := by
  unfold collapseWs
  rw [runScan_cons spaceStep_ok, spaceStep_none_of_not hc]

theorem collapseWs_cons_space {c : Char} {rest : Str} (hc : jsIsSpace c = true) :
    collapseWs (c :: rest) = ' ' :: collapseWs (rest.dropWhile jsIsSpace) := by
  unfold collapseWs
  rw [runScan_cons spaceStep_ok]
  have hstep : spaceStep (c :: rest) = some ([' '], rest.dropWhile jsIsSpace) := by
    simp [spaceStep, hc]
  rw [hstep]
  rfl

theorem collapseWs_noRun (l : Str) : NoRunWs (collapseWs l) := by
  have main : ∀ n l, List.length l ≤ n → NoRunWs (collapseWs l) := by
    intro n
    induction n with
    | zero =>
      intro l hl
      have : l = [] := List.length_eq_zero.mp (Nat.le_zero.mp hl)
      subst this
      exact ⟨by simp [collapseWs_nil], by simp [collapseWs_nil]⟩
    | succ n ih =>
      intro l hl
      match l with
      | [] => exact ⟨by simp [collapseWs_nil], by simp [collapseWs_nil]⟩
      | c :: rest =>
        have hrn : rest.length ≤ n := by simpa using hl
        by_cases hws : jsIsSpace c = true
        · rw [collapseWs_cons_space hws]
          have ihrem := ih (rest.dropWhile jsIsSpace)
            (le_trans (List.dropWhile_sublist _).length_le hrn)
          constructor
          · intro x hx hxs
            rcases List.mem_cons.mp hx with h2 | h2
            · exact h2
            · exact ihrem.1 x h2 hxs
          · rw [List.chain'_cons']
            refine ⟨?_, ihrem.2⟩
            intro y hy
            cases hrm : rest.dropWhile jsIsSpace with
            | nil => rw [hrm, collapseWs_nil] at hy; simp at hy
            | cons d rm =>
              have hd : jsIsSpace d = false := dropWhile_cons_head hrm
              rw [hrm, collapseWs_cons_head hd] at hy
              simp only [List.head?_cons, Option.mem_def, Option.some.injEq] at hy
              subst hy
              intro hcontra
              rw [hd] at hcontra
              exact Bool.false_ne_true hcontra.2
        · have hws2 : jsIsSpace c = false := by
            cases h2 : jsIsSpace c
            · rfl
            · exact absurd h2 hws
          rw [collapseWs_cons_head hws2]
          have ihrest := ih rest hrn
          constructor
          · intro x hx hxs
            rcases List.mem_cons.mp hx with h2 | h2
            · subst h2; rw [hws2] at hxs; exact absurd hxs (by simp)
            · exact ihrest.1 x h2 hxs
          · rw [List.chain'_cons']
            refine ⟨?_, ihrest.2⟩
            intro y hy hcontra
            rw [hws2] at hcontra
            exact Bool.false_ne_true hcontra.1
  exact main l.length l le_rfl

theorem noRunWs_middle {l a t b : Str} (h : NoRunWs l) (hd : l = a ++ t ++ b) :
    NoRunWs t := by
  constructor
  · intro c hc hcs
    refine h.1 c ?_ hcs
    rw [hd]
    exact List.mem_append.mpr (Or.inl (List.mem_append.mpr (Or.inr hc)))
  · have h2 := h.2
    rw [hd] at h2
    exact ((List.chain'_append.mp ((List.chain'_append.mp h2).1)).2).1

theorem collapseWs_id_of_noRun : ∀ {l : Str}, NoRunWs l → collapseWs l = l := by
  have main : ∀ n l, List.length l ≤ n → NoRunWs l → collapseWs l = l := by
    intro n
    induction n with
    | zero =>
      intro l hl _
      have : l = [] := List.length_eq_zero.mp (Nat.le_zero.mp hl)
      subst this
      exact collapseWs_nil
    | succ n ih =>
      intro l hl h
      match l with
      | [] => exact collapseWs_nil
      | c :: rest =>
        have hrn : rest.length ≤ n := by simpa using hl
        have htail : NoRunWs rest :=
          noRunWs_middle h (a := [c]) (b := []) (by simp)
        by_cases hws : jsIsSpace c = true
        · have hc : c = ' ' := h.1 c (List.mem_cons_self _ _) hws
          rw [collapseWs_cons_space hws]
          cases rest with
          | nil => rw [hc]; rfl
          | cons d rm =>
            have hrel := (List.chain'_cons.mp h.2).1
            have hd : jsIsSpace d = false := by
              cases h2 : jsIsSpace d
              · rfl
              · exact absurd ⟨hws, h2⟩ hrel
            rw [List.dropWhile_cons, if_neg (by simp [hd])]
            rw [ih (d :: rm) hrn htail, hc]
        · have hws2 : jsIsSpace c = false := by
            cases h2 : jsIsSpace c
            · rfl
            · exact absurd h2 hws
          rw [collapseWs_cons_head hws2, ih rest hrn htail]
  intro l
  exact main l.length l le_rfl

theorem dropWhile_idem (p : Char → Bool) (l : Str) :
    (l.dropWhile p).dropWhile p = l.dropWhile p := by
  cases h : l.dropWhile p with
  | nil => rfl
  | cons c rest =>
    have hc := dropWhile_cons_head h
    rw [List.dropWhile_cons, if_neg (by simp [hc])]

theorem dropWhile_append_last {p : Char → Bool} {c : Char} (hc : p c = false) :
    ∀ zs : Str, ∃ ys, (zs ++ [c]).dropWhile p = ys ++ [c] := by
  intro zs
  induction zs with
  | nil => exact ⟨[], by simp [List.dropWhile_cons, hc]⟩
  | cons z zr ih =>
    by_cases hz : p z = true
    · obtain ⟨ys, hys⟩ := ih
      exact ⟨ys, by rw [List.cons_append, List.dropWhile_cons, if_pos hz, hys]⟩
    · exact ⟨z :: zr, by
        rw [List.cons_append, List.dropWhile_cons, if_neg hz]⟩

theorem trimWs_nil : trimWs [] = [] := rfl

theorem trimWs_head_not (l : Str) :
    trimWs l = [] ∨ ∃ c rest, trimWs l = c :: rest ∧ jsIsSpace c = false := by
  cases hA : l.dropWhile jsIsSpace with
  | nil =>
    left
    unfold trimWs
    rw [hA]
    rfl
  | cons c rest =>
    have hc : jsIsSpace c = false := dropWhile_cons_head hA
    obtain ⟨ys, hys⟩ := dropWhile_append_last hc rest.reverse
    right
    refine ⟨c, ys.reverse, ?_, hc⟩
    unfold trimWs
    rw [hA, List.reverse_cons, hys, List.reverse_append]
    rfl

theorem trimWs_idem (l : Str) : trimWs (trimWs l) = trimWs l := by
  have hrev : (trimWs l).reverse = (l.dropWhile jsIsSpace).reverse.dropWhile jsIsSpace := by
    unfold trimWs
    rw [List.reverse_reverse]
  have h1 : (trimWs l).dropWhile jsIsSpace = trimWs l := by
    rcases trimWs_head_not l with h | ⟨c, rest, heq, hc⟩
    · rw [h]; rfl
    · rw [heq, List.dropWhile_cons, if_neg (by simp [hc])]
  show ((trimWs l |>.dropWhile jsIsSpace).reverse.dropWhile jsIsSpace).reverse = trimWs l
  rw [h1, hrev, dropWhile_idem, ← hrev, List.reverse_reverse]

theorem collapseWs_trimWs_collapse (w : Str) :
    collapseWs (trimWs (collapseWs w)) = trimWs (collapseWs w) := by
  obtain ⟨a, b, hab⟩ := trimWs_middle (collapseWs w)
  exact collapseWs_id_of_noRun (noRunWs_middle (collapseWs_noRun w) hab)

theorem normWs_idem (l : Str) : normWs (normWs l) = normWs l := by
  unfold normWs
  rw [collapseWs_trimWs_collapse, trimWs_idem]

/-! Entity decoding is the identity on ampersand-free text. -/

theorem entityStep_none_of_ne {c : Char} {rest : Str} (hc : c ≠ '&') :
    entityStep (c :: rest) = none := by
  simp [entityStep, hc]

theorem decodeHtmlEntities_no_amp : ∀ {l : Str}, '&' ∉ l →
    decodeHtmlEntities l = some l := by
  intro l
  induction l with
  | nil => intro _; rfl
  | cons c rest ih =>
    intro h
    have hc : c ≠ '&' := fun he => h (he ▸ List.mem_cons_self _ _)
    have hr : '&' ∉ rest := fun hm => h (List.mem_cons_of_mem _ hm)
    show decodeScan (rest.length + 1) (c :: rest) = some (c :: rest)
    unfold decodeScan
    rw [entityStep_none_of_ne hc]
    have h2 := ih hr
    unfold decodeHtmlEntities at h2
    show (decodeScan rest.length rest).map (fun t => c :: t) = some (c :: rest)
    rw [h2]
    rfl

/-- C2 counterexample: entity decoding reintroduces markup, so `toPlainText`
    is neither idempotent nor tag-free on its output: on "&lt;b&gt;" one
    application yields "<b>" (which contains a tag sequence) and a second
    application strips it to the empty string. -/
theorem c2_counterexample :
    toPlainText "&lt;b&gt;".data = some "<b>".data ∧
    (toPlainText "&lt;b&gt;".data).bind toPlainText = some [] ∧
    (toPlainText "&lt;b&gt;".data).bind toPlainText ≠ toPlainText "&lt;b&gt;".data ∧
    hasTag "<b>".data = true := by
  refine ⟨by rfl, by rfl, by decide, by decide⟩

/-- C2 (amended): for inputs containing no ampersand (so entity decoding
    cannot reintroduce markup), `toPlainText` succeeds, is idempotent on its
    own output, and its output contains no `<...>` tag sequence. -/
theorem c2_toPlainText_amended (x : Str) (hamp : '&' ∉ x) :
    ∃ y, toPlainText x = some y ∧ toPlainText y = some y ∧ hasTag y = false := by
  have hTagFree : hasTag (stripHtmlTags x) = false := by
    unfold stripHtmlTags
    exact hasTag_runScan_tagStep _
  have hampW : '&' ∉ stripHtmlTags x := by
    intro hm
    rcases mem_stripHtmlTags hm with h | h | h
    · exact hamp h
    · exact absurd h (by decide)
    · exact absurd h (by decide)
  have hdec : decodeHtmlEntities (stripHtmlTags x) = some (stripHtmlTags x) :=
    decodeHtmlEntities_no_amp hampW
  have hx : toPlainText x = some (normWs (stripHtmlTags x)) := by
    unfold toPlainText
    rw [hdec]
    rfl
  refine ⟨normWs (stripHtmlTags x), hx, ?_, ?_⟩
  · -- second application is the identity
    have hTagY : hasTag (normWs (stripHtmlTags x)) = false := by
      by_contra hcon
      rw [Bool.not_eq_false] at hcon
      have h2 : hasTag (collapseWs (stripHtmlTags x)) = true :=
        hasTag_trimWs_reflect hcon
      have h3 : hasTag (stripHtmlTags x) = true := hasTag_collapseWs_reflect h2
      rw [hTagFree] at h3
      exact Bool.false_ne_true h3
    have hampY : '&' ∉ normWs (stripHtmlTags x) := by
      intro hm
      have hm2 : '&' ∈ collapseWs (stripHtmlTags x) :=
        (trimWs_sublist _).mem hm
      rcases mem_collapseWs hm2 with h | h
      · exact hampW h
      · exact absurd h (by decide)
    have hstripY := stripHtmlTags_id hTagY
    have hdecY := decodeHtmlEntities_no_amp hampY
    unfold toPlainText
    rw [hstripY, hdecY]
    simp only [Option.map_some']
    show some (normWs (normWs (stripHtmlTags x))) = _
    rw [normWs_idem]
  · by_contra hcon
    rw [Bool.not_eq_false] at hcon
    have h2 : hasTag (collapseWs (stripHtmlTags x)) = true :=
      hasTag_trimWs_reflect hcon
    have h3 : hasTag (stripHtmlTags x) = true := hasTag_collapseWs_reflect h2
    rw [hTagFree] at h3
    exact Bool.false_ne_true h3

/-- Witness for the amended C2 theorem at a concrete ampersand-free input. -/
theorem c2_toPlainText_amended_witness :
    '&' ∉ "<p>Hello  world</p>".data ∧
    ∃ y, toPlainText "<p>Hello  world</p>".data = some y ∧
      toPlainText y = some y ∧ hasTag y = false :=
  ⟨by decide, c2_toPlainText_amended "<p>Hello  world</p>".data (by decide)⟩

/-- C4 counterexample: the named entity "&apos;" decodes to an apostrophe,
    which `escapeHtml` escapes as "&#39;", not "&apos;", so the round-trip
    claimed for the decoder's whole named-entity set fails. -/
theorem c4_counterexample :
    (decodeHtmlEntities "&apos;".data).map escapeHtml = some "&#39;".data ∧
    some "&#39;".data ≠ some "&apos;".data := by
  exact ⟨by rfl, by decide⟩

/-- C4 (amended): escaping the decoded text round-trips exactly for the
    four named entities "&amp;", "&lt;", "&gt;" and "&quot;"; for the other
    nine named entities of the decoder's table ("&apos;", "&nbsp;",
    "&ndash;", "&mdash;", "&rsquo;", "&lsquo;", "&ldquo;", "&rdquo;",
    "&times;") the composition `escapeHtml ∘ decodeHtmlEntities` does not
    reproduce the input. -/
theorem c4_roundtrip_amended :
    (decodeHtmlEntities "&amp;".data).map escapeHtml = some "&amp;".data ∧
    (decodeHtmlEntities "&lt;".data).map escapeHtml = some "&lt;".data ∧
    (decodeHtmlEntities "&gt;".data).map escapeHtml = some "&gt;".data ∧
    (decodeHtmlEntities "&quot;".data).map escapeHtml = some "&quot;".data ∧
    (decodeHtmlEntities "&apos;".data).map escapeHtml ≠ some "&apos;".data ∧
    (decodeHtmlEntities "&nbsp;".data).map escapeHtml ≠ some "&nbsp;".data ∧
    (decodeHtmlEntities "&ndash;".data).map escapeHtml ≠ some "&ndash;".data ∧
    (decodeHtmlEntities "&mdash;".data).map escapeHtml ≠ some "&mdash;".data ∧
    (decodeHtmlEntities "&rsquo;".data).map escapeHtml ≠ some "&rsquo;".data ∧
    (decodeHtmlEntities "&lsquo;".data).map escapeHtml ≠ some "&lsquo;".data ∧
    (decodeHtmlEntities "&ldquo;".data).map escapeHtml ≠ some "&ldquo;".data ∧
    (decodeHtmlEntities "&rdquo;".data).map escapeHtml ≠ some "&rdquo;".data ∧
    (decodeHtmlEntities "&times;".data).map escapeHtml ≠ some "&times;".data := by
  refine ⟨by rfl, by rfl, by rfl, by rfl, ?_, ?_, ?_, ?_, ?_, ?_, ?_, ?_, ?_⟩ <;> decide

/-! Data model of the Teacher Notes engine (source types `CanvasModuleItem`,
    `SessionPageContext`, `SessionTask`, `CommonIssue`). -/

structure CanvasModuleItem where
  id : Int
  title : Str
  type : Str
  position : Int
  page_url : Option Str
deriving DecidableEq

structure SessionPageContext where
  title : Str
  pageUrl : Str
  position : Int
  bodyHtml : Str
  bodyText : Str
deriving DecidableEq

structure SessionTask where
  title : Str
  pages : List SessionPageContext
deriving DecidableEq

structure CommonIssue where
  issue : Str
  solution : Str
deriving DecidableEq

/-- Model of `Array.prototype.join(sep)`. -/
def joinSep (sep : Str) : List Str → Str
  | [] => []
  | [x] => x
  | x :: y :: rest => x ++ sep ++ joinSep sep (y :: rest)

/-! Word-boundary regex tests (`\b...\b`).  All patterns used by the source
    start and end with word characters, so a boundary holds exactly when the
    adjacent character is absent or not a word character. -/

def isWordChar (c : Char) : Bool := isAsciiAlpha c || isDigitCh c || c == '_'

def isAlnumCh (c : Char) : Bool := isAsciiAlpha c || isDigitCh c

def boundaryBefore : Option Char → Bool
  | none => true
  | some p => !(isWordChar p)

def boundaryAfterAt (pat l : Str) : Bool :=
  match l.drop pat.length with
  | [] => true
  | d :: _ => !(isWordChar d)

/-- Case-insensitive `\bpat\b` test. -/
def wordTestCIAux (pat : Str) : Option Char → Str → Bool
  | _, [] => false
  | prev, c :: rest =>
    (boundaryBefore prev && startsWithCI pat (c :: rest) &&
      boundaryAfterAt pat (c :: rest)) || wordTestCIAux pat (some c) rest

def wordTestCI (pat text : Str) : Bool := wordTestCIAux pat none text

/-- Case-insensitive `\bpat` test (no trailing boundary), for
    `/\bjumper wire/i`. -/
def wordStartTestCIAux (pat : Str) : Option Char → Str → Bool
  | _, [] => false
  | prev, c :: rest =>
    (boundaryBefore prev && startsWithCI pat (c :: rest)) ||
      wordStartTestCIAux pat (some c) rest

def wordStartTestCI (pat text : Str) : Bool := wordStartTestCIAux pat none text

/-- Case-sensitive `\bpat\b` test, for the common-issue triggers that run on
    already-lowercased text. -/
def wordTestAux (pat : Str) : Option Char → Str → Bool
  | _, [] => false
  | prev, c :: rest =>
    (boundaryBefore prev && startsWithStr pat (c :: rest) &&
      boundaryAfterAt pat (c :: rest)) || wordTestAux pat (some c) rest

def wordTest (pat text : Str) : Bool := wordTestAux pat none text

def isLineTerm (c : Char) : Bool :=
  c == '\n' || c == '\r' || c.toNat == 0x2028 || c.toNat == 0x2029

/-- Existence of a split matching `\s+.+\s+work` (the tail of
    `/\bhow\s+.+\s+work/i`): `.` excludes line terminators only. -/
def howWorkTailTest (rest : Str) : Bool :=
  (List.range (rest.length + 1)).any (fun p =>
    (List.range (rest.length + 1)).any (fun q =>
      (List.range (rest.length + 1)).any (fun r =>
        decide (0 < p) && decide (p < q) && decide (q < r) &&
        ((rest.take p).all jsIsSpace) &&
        (((rest.take q).drop p).all (fun c => !(isLineTerm c))) &&
        (((rest.take r).drop q).all jsIsSpace) &&
        startsWithCI "work".data (rest.drop r))))

/-- Test of `/\bhow\s+.+\s+work/i`. -/
def howWorkTestAux : Option Char → Str → Bool
  | _, [] => false
  | prev, c :: rest =>
    (boundaryBefore prev && startsWithCI "how".data (c :: rest) &&
      howWorkTailTest ((c :: rest).drop 3)) || howWorkTestAux (some c) rest

def howWorkTest (text : Str) : Bool := howWorkTestAux none text

/-! The fixed keyword tables (`SOFTWARE_KEYWORDS`, `HARDWARE_KEYWORDS`). -/

structure KeywordPattern where
  pattern : Str → Bool
  label : Str

def SOFTWARE_KEYWORDS : List KeywordPattern :=
  [⟨wordTestCI "arduino ide".data, "Arduino IDE".data⟩,
   ⟨wordTestCI "serial monitor".data, "Serial Monitor".data⟩,
   ⟨wordTestCI "blender".data, "Blender".data⟩,
   ⟨wordTestCI "tinkercad".data, "Tinkercad".data⟩,
   ⟨wordTestCI "web browser".data, "Web browser (Chrome preferred)".data⟩]

def HARDWARE_KEYWORDS : List KeywordPattern :=
  [⟨wordTestCI "lcd".data, "LCD screen module".data⟩,
   ⟨fun t => wordTestCI "3x4".data t || wordTestCI "matrix keypad".data t ||
      wordTestCI "keypad".data t, "3x4 matrix keypad".data⟩,
   ⟨fun t => wordTestCI "esp32".data t || wordTestCI "nodemcu".data t,
      "NodeMCU ESP32 board".data⟩,
   ⟨wordTestCI "breadboard".data, "Breadboard".data⟩,
   ⟨wordStartTestCI "jumper wire".data, "Jumper wires".data⟩,
   ⟨wordTestCI "usb".data, "USB cable".data⟩]

/-! Deduplication (`dedupe`, `dedupeIssues`): case-insensitive,
    whitespace-normalised keys, first occurrence wins. -/

def dedupeAux (seen : List Str) : List Str → List Str
  | [] => []
  | v :: rest =>
    if normWs v = [] then dedupeAux seen rest
    else if lowerStr (normWs v) ∈ seen then dedupeAux seen rest
    else normWs v :: dedupeAux (lowerStr (normWs v) :: seen) rest

def dedupe (values : List Str) : List Str := dedupeAux [] values

def dedupeIssuesAux (seen : List Str) : List CommonIssue → List CommonIssue
  | [] => []
  | v :: rest =>
    if normWs v.issue = [] ∨ normWs v.solution = [] then dedupeIssuesAux seen rest
    else if lowerStr (normWs v.issue) ∈ seen then dedupeIssuesAux seen rest
    else ⟨normWs v.issue, normWs v.solution⟩ ::
      dedupeIssuesAux (lowerStr (normWs v.issue) :: seen) rest

def dedupeIssues (values : List CommonIssue) : List CommonIssue :=
  dedupeIssuesAux [] values

/-- Model of `detectComponents`. -/
def detectComponents (text : Str) (patterns : List KeywordPattern)
    (fallback : List Str) : List Str :=
  if (patterns.filter (fun entry => entry.pattern text)).map
      (fun entry => entry.label) = [] then fallback
  else dedupe ((patterns.filter (fun entry => entry.pattern text)).map
    (fun entry => entry.label))

/-! Sentence extraction (`firstSentence`, `cleanupSentence`,
    `toOutcomeBullet`). -/

/-- Strip of `/^hi all[,!\s]*/i` (first match only, anchored). -/
def stripHiAll (input : Str) : Str :=
  if startsWithCI "hi all".data input then
    (input.drop 6).dropWhile (fun c => c == ',' || c == '!' || jsIsSpace c)
  else input

def chompAltCI (pats : List Str) (l : Str) : Option Str :=
  match pats.find? (fun p => startsWithCI p l) with
  | some p => some (l.drop p.length)
  | none => none

def chompCI (pat : Str) (l : Str) : Option Str :=
  if startsWithCI pat l then some (l.drop pat.length) else none

/-- Strip of `/^(the task|task|keypad circuit)\s*[:\-]?\s*/i`. -/
def stripTaskLabel (input : Str) : Str :=
  match chompAltCI ["the task".data, "task".data, "keypad circuit".data] input with
  | some r1 =>
    (match r1.dropWhile jsIsSpace with
     | ':' :: rest => rest
     | '-' :: rest => rest
     | other => other).dropWhile jsIsSpace
  | none => input

/-- Model of `cleanupSentence`. -/
def cleanupSentence (input : Str) : Str :=
  normWs (stripTaskLabel (stripHiAll input))

/-- Fueled scanner for `split(/(?<=[.!?])\s+/)`: a whitespace run preceded
    by `.`, `!` or `?` separates parts. -/
def splitScan : Nat → Option Char → Str → Str → List Str
  | 0, _, acc, l => [acc.reverse ++ l]
  | _ + 1, _, acc, [] => [acc.reverse]
  | fuel + 1, prev, acc, c :: rest =>
    if jsIsSpace c &&
        (match prev with
         | some p => p == '.' || p == '!' || p == '?'
         | none => false) then
      acc.reverse ::
        splitScan fuel (some ((c :: rest.takeWhile jsIsSpace).getLastD c)) []
          (rest.dropWhile jsIsSpace)
    else
      splitScan fuel (some c) (c :: acc) rest

def splitSentences (l : Str) : List Str := splitScan l.length none [] l

def endsTerminal (s : Str) : Bool :=
  match s.reverse with
  | [] => false
  | c :: _ => c == '.' || c == '!' || c == '?'

/-- Model of `firstSentence`. -/
def firstSentence (text : Str) : Option Str :=
  if normWs text = [] then none
  else
    match (splitSentences (normWs text)).findSome? (fun raw =>
      if 20 ≤ (cleanupSentence raw).length then
        some (if endsTerminal (cleanupSentence raw) then cleanupSentence raw
          else cleanupSentence raw ++ ['.'])
      else none) with
    | some s => some s
    | none =>
      if (cleanupSentence (normWs text)).length ≠ 0 then
        some (cleanupSentence (normWs text) ++ ['.'])
      else none

/-- Strip of an anchored `pat\s*` (case-insensitive, first match only). -/
def stripHeadCI (pat : Str) (l : Str) : Str :=
  if startsWithCI pat l then (l.drop pat.length).dropWhile jsIsSpace else l

/-- Strip of an anchored `(alt1|alt2)\s*`. -/
def stripAltHeadWs (alts : List Str) (l : Str) : Str :=
  match chompAltCI alts l with
  | some r => r.dropWhile jsIsSpace
  | none => l

/-- Strip of `/^in this (task|session),?\s*(you|students)\s*(will|should)\s*/i`. -/
def stripInThisYouWill (l : Str) : Str :=
  match chompAltCI ["in this task".data, "in this session".data] l with
  | none => l
  | some r1 =>
    match chompAltCI ["you".data, "students".data]
        ((match r1 with
          | ',' :: rest => rest
          | other => other).dropWhile jsIsSpace) with
    | none => l
    | some r4 =>
      match chompAltCI ["will".data, "should".data] (r4.dropWhile jsIsSpace) with
      | none => l
      | some r6 => r6.dropWhile jsIsSpace

/-- Strip of `/^in this (task|session),?\s*/i`. -/
def stripInThisComma (l : Str) : Str :=
  match chompAltCI ["in this task".data, "in this session".data] l with
  | some r1 =>
    (match r1 with
     | ',' :: rest => rest
     | other => other).dropWhile jsIsSpace
  | none => l

/-- Strip of `/^this (task|session)\s+(is|covers)\s*/i`. -/
def stripThisTaskIs (l : Str) : Str :=
  match chompAltCI ["this task".data, "this session".data] l with
  | none => l
  | some r1 =>
    if r1.takeWhile jsIsSpace = [] then l
    else
      match chompAltCI ["is".data, "covers".data] (r1.dropWhile jsIsSpace) with
      | none => l
      | some r2 => r2.dropWhile jsIsSpace

/-- Strip of `/^now,?\s*/i`. -/
def stripNow (l : Str) : Str :=
  match chompCI "now".data l with
  | none => l
  | some r1 =>
    (match r1 with
     | ',' :: rest => rest
     | other => other).dropWhile jsIsSpace

/-- Fueled scanner for the global word replace `/\byour\b/gi → "their"`;
    after a match the regex continues after the matched text, whose last
    character is the look-behind context for the next boundary. -/
def replaceWordScanCI (pat rep : Str) : Nat → Option Char → Str → Str
  | 0, _, l => l
  | _ + 1, _, [] => []
  | fuel + 1, prev, c :: rest =>
    if boundaryBefore prev && startsWithCI pat (c :: rest) &&
        boundaryAfterAt pat (c :: rest) then
      rep ++ replaceWordScanCI pat rep fuel
        (some (((c :: rest).take pat.length).getLastD c))
        ((c :: rest).drop pat.length)
    else
      c :: replaceWordScanCI pat rep fuel (some c) rest

def replaceWordAllCI (pat rep text : Str) : Str :=
  replaceWordScanCI pat rep text.length none text

/-- First-match-only word replace, for `/\ba lcd\b/i → "an LCD"`. -/
def replaceWordOnceScanCI (pat rep : Str) : Option Char → Str → Str
  | _, [] => []
  | prev, c :: rest =>
    if boundaryBefore prev && startsWithCI pat (c :: rest) &&
        boundaryAfterAt pat (c :: rest) then
      rep ++ (c :: rest).drop pat.length
    else
      c :: replaceWordOnceScanCI pat rep (some c) rest

def replaceWordOnceCI (pat rep text : Str) : Str :=
  replaceWordOnceScanCI pat rep none text

def capitalizeHead : Str → Str
  | [] => []
  | c :: rest => ucChar c :: rest

/-- Model of `toOutcomeBullet`. -/
def toOutcomeBullet (input : Str) : Str :=
  let s0 := cleanupSentence input
  let s1 := stripHeadCI "students should be able to".data s0
  let s2 := stripHeadCI "students should".data s1
  let s3 := stripAltHeadWs ["students will".data, "students can".data] s2
  let s4 := stripInThisYouWill s3
  let s5 := stripAltHeadWs ["you will".data, "you should".data] s4
  let s6 := stripInThisComma s5
  let s7 := stripThisTaskIs s6
  let s8 := stripNow s7
  let s9 := replaceWordAllCI "your".data "their".data s8
  let s10 := replaceWordOnceCI "a lcd".data "an LCD".data s9
  let cleaned := normWs s10
  if cleaned = [] then "Complete the activity and explain how it works.".data
  else
    let normalized := capitalizeHead cleaned
    (if endsTerminal normalized then normalized.dropLast else normalized) ++ ['.']

/-! Task-header parsing and the session-objective synthesis. -/

/-- Model of `parseTaskHeader`: parses the trimmed title against
    `/^(Session\s+\d+\s*):\s*Task\s+([A-Za-z0-9]+)/i`; returns the
    whitespace-normalised captured session label (original case) and the
    uppercased task label. -/
def parseTaskHeader (input : Str) : Option (Str × Str) :=
  if startsWithCI "session".data (trimWs input) then
    if (((trimWs input).drop 7).takeWhile jsIsSpace) = [] then none
    else
      if ((((trimWs input).drop 7).dropWhile jsIsSpace).takeWhile isDigitCh) = [] then none
      else
        match (((((trimWs input).drop 7).dropWhile jsIsSpace).dropWhile
            isDigitCh).dropWhile jsIsSpace) with
        | ':' :: r4 =>
          if startsWithCI "task".data (r4.dropWhile jsIsSpace) then
            if ((((r4.dropWhile jsIsSpace).drop 4).takeWhile jsIsSpace)) = [] then none
            else
              if (((((r4.dropWhile jsIsSpace).drop 4).dropWhile
                  jsIsSpace).takeWhile isAlnumCh)) = [] then none
              else
                -- Group 1 is `Session\s+\d+\s*`: every character the group
                -- can match differs from ":", and the regex continues with
                -- ":", so on a successful match the captured group is
                -- exactly the trimmed input up to its first colon.
                some (normWs ((trimWs input).takeWhile (fun c => c != ':')),
                  upperStr ((((r4.dropWhile jsIsSpace).drop 4).dropWhile
                    jsIsSpace).takeWhile isAlnumCh))
          else none
        | _ => none
  else none

/-- Model of the test `TASK_HEADER_RE.test(title)` for
    `/^session\s+\d+\s*:\s*task\s+[a-z0-9]/i`. -/
def taskHeaderTest (l : Str) : Bool :=
  startsWithCI "session".data l &&
  !(((l.drop 7).takeWhile jsIsSpace).isEmpty) &&
  !((((l.drop 7).dropWhile jsIsSpace).takeWhile isDigitCh).isEmpty) &&
  (match ((((l.drop 7).dropWhile jsIsSpace).dropWhile isDigitCh).dropWhile
      jsIsSpace) with
   | ':' :: r4 =>
     startsWithCI "task".data (r4.dropWhile jsIsSpace) &&
     !((((r4.dropWhile jsIsSpace).drop 4).takeWhile jsIsSpace).isEmpty) &&
     (match ((r4.dropWhile jsIsSpace).drop 4).dropWhile jsIsSpace with
      | c :: _ => isAlnumCh c
      | [] => false)
   | _ => false)

def genericTaskSequence (tasks : List SessionTask) : Str :=
  "Complete the session task sequence: ".data ++
    joinSep ", ".data (tasks.map (fun t => t.title)) ++ ".".data

/-- Model of `buildTaskSequenceObjective`.  When `parsed.length =
    tasks.length` and `tasks` is nonempty, `parsed` is nonempty, so the
    source's `parsed[0]` access is safe; the empty-`parsed` match arm below
    is unreachable. -/
def buildTaskSequenceObjective (tasks : List SessionTask) : Option Str :=
  if tasks = [] then none
  else
    if (tasks.filterMap (fun t => parseTaskHeader t.title)).length = tasks.length then
      match tasks.filterMap (fun t => parseTaskHeader t.title) with
      | [] => some (genericTaskSequence tasks)
      | p0 :: ps =>
        if (p0 :: ps).all (fun q => lowerStr q.1 == lowerStr p0.1) then
          some ("Complete ".data ++ p0.1 ++ ": Task ".data ++
            joinSep "/".data ((p0 :: ps).map (fun q => q.2)) ++ ".".data)
        else some (genericTaskSequence tasks)
    else some (genericTaskSequence tasks)

def objectiveFiller1 (sessionName : Str) : Str :=
  "Apply the core skills from ".data ++ sessionName ++
    " with increasing independence.".data

def objectiveFiller2 : Str :=
  "Troubleshoot one issue at a time before requesting direct help.".data

/-- Model of `buildObjectivePoints`. -/
def buildObjectivePoints (introPages : List SessionPageContext)
    (tasks : List SessionTask) (sessionName : Str) : List Str :=
  let points0 : List Str :=
    match buildTaskSequenceObjective tasks with
    | some s => [s]
    | none => []
  let points1 :=
    match firstSentence (joinSep " ".data (introPages.map (fun p => p.bodyText))) with
    | some s => points0 ++ [toOutcomeBullet s]
    | none => points0
  let points2 :=
    if points1.length < 3 then points1 ++ [objectiveFiller1 sessionName] else points1
  let points3 :=
    if points2.length < 3 then points2 ++ [objectiveFiller2] else points2
  (dedupe points3).take 3

/-- Model of `buildTaskSummary`. -/
def buildTaskSummary (task : SessionTask) : Str :=
  "Outcome for this task: complete the activities in ".data ++
    joinSep ", ".data (task.pages.map (fun p => p.title)) ++ ".".data

/-- Model of `buildTaskPoints`. -/
def buildTaskPoints (task : SessionTask) : List Str :=
  (dedupe (task.pages.map (fun page =>
    match firstSentence page.bodyText with
    | some sentence => toOutcomeBullet sentence
    | none => "Complete \"".data ++ page.title ++
        "\" and verify it works before moving on.".data))).take 3

def wiringIssue : CommonIssue :=
  ⟨"Incorrect pin wiring between the board, LCD, and keypad.".data,
   "Have students trace each wire against the diagram one connection at a time, then re-test after each correction.".data⟩

def uploadIssue : CommonIssue :=
  ⟨"Sketch upload errors caused by board/port configuration mistakes.".data,
   "Check board model, selected port, cable quality, and close any app using the serial connection before retrying.".data⟩

def keypadIssue : CommonIssue :=
  ⟨"Incorrect row/column mapping in keypad code.".data,
   "Compare keypad wiring to the row/column array in code and test each key in Serial Monitor to confirm mapping.".data⟩

def lcdIssue : CommonIssue :=
  ⟨"LCD output not displaying as expected.".data,
   "Verify power and data pins, adjust LCD contrast, and run a minimal known-good test sketch first.".data⟩

def multiChangeIssue : CommonIssue :=
  ⟨"Students make multiple changes at once and lose track of the cause of errors.".data,
   "Enforce one-change-at-a-time debugging and require a quick test after each change.".data⟩

def checkpointIssue : CommonIssue :=
  ⟨"Students forget to save a known-good version before experimenting.".data,
   "Set mandatory checkpoint saves after each working milestone before extensions.".data⟩

/-- Model of `buildCommonIssues`. -/
def buildCommonIssues (tasks : List SessionTask) (fullText : Str) : List CommonIssue :=
  let issues0 : List CommonIssue :=
    (if wordTest "wiring".data (lowerStr fullText) then [wiringIssue] else []) ++
    (if wordTest "upload".data (lowerStr fullText) ||
        wordTest "compile".data (lowerStr fullText) then [uploadIssue] else []) ++
    (if wordTest "keypad".data (lowerStr fullText) then [keypadIssue] else []) ++
    (if wordTest "lcd".data (lowerStr fullText) then [lcdIssue] else [])
  let issues1 :=
    if issues0.length < 3 ∧ 0 < tasks.length then issues0 ++ [multiChangeIssue]
    else issues0
  let issues2 :=
    if issues1.length < 4 then issues1 ++ [checkpointIssue] else issues1
  (dedupeIssues issues2).take 4

/-! Properties of the deduplication helpers. -/

theorem dedupeAux_props : ∀ (l seen : List Str),
    (∀ y ∈ dedupeAux seen l, normWs y = y ∧ y ≠ [] ∧ lowerStr y ∉ seen) ∧
    (dedupeAux seen l).Pairwise (fun a b => lowerStr a ≠ lowerStr b) := by
  intro l
  induction l with
  | nil => intro seen; exact ⟨by simp [dedupeAux], by simp [dedupeAux]⟩
  | cons v rest ih =>
    intro seen
    by_cases h1 : normWs v = []
    · have heq : dedupeAux seen (v :: rest) = dedupeAux seen rest := by
        simp only [dedupeAux]
        rw [if_pos h1]
      rw [heq]
      exact ih seen
    · by_cases h2 : lowerStr (normWs v) ∈ seen
      · have heq : dedupeAux seen (v :: rest) = dedupeAux seen rest := by
          simp only [dedupeAux]
          rw [if_neg h1, if_pos h2]
        rw [heq]
        exact ih seen
      · have heq : dedupeAux seen (v :: rest) =
            normWs v :: dedupeAux (lowerStr (normWs v) :: seen) rest := by
          simp only [dedupeAux]
          rw [if_neg h1, if_neg h2]
        rw [heq]
        obtain ⟨ihmem, ihpw⟩ := ih (lowerStr (normWs v) :: seen)
        constructor
        · intro y hy
          rcases List.mem_cons.mp hy with h3 | h3
          · subst h3
            exact ⟨normWs_idem v, h1, h2⟩
          · obtain ⟨ha, hb, hc⟩ := ihmem y h3
            exact ⟨ha, hb, fun hmem => hc (List.mem_cons_of_mem _ hmem)⟩
        · rw [List.pairwise_cons]
          refine ⟨?_, ihpw⟩
          intro y hy hcontra
          obtain ⟨_, _, hc⟩ := ihmem y hy
          exact hc (by rw [← hcontra]; exact List.mem_cons_self _ _)

theorem dedupe_mem_props {l : List Str} {y : Str} (hy : y ∈ dedupe l) :
    normWs y = y ∧ y ≠ [] :=
  ⟨((dedupeAux_props l []).1 y hy).1, ((dedupeAux_props l []).1 y hy).2.1⟩

theorem dedupe_pairwise (l : List Str) :
    (dedupe l).Pairwise (fun a b => lowerStr (normWs a) ≠ lowerStr (normWs b)) := by
  refine (dedupeAux_props l []).2.imp_of_mem ?_
  intro a b ha hb hr
  rw [(dedupe_mem_props ha).1, (dedupe_mem_props hb).1]
  exact hr

theorem dedupeIssuesAux_props : ∀ (l : List CommonIssue) (seen : List Str),
    (∀ y ∈ dedupeIssuesAux seen l, normWs y.issue = y.issue ∧
      lowerStr y.issue ∉ seen) ∧
    (dedupeIssuesAux seen l).Pairwise (fun a b => lowerStr a.issue ≠ lowerStr b.issue) := by
  intro l
  induction l with
  | nil => intro seen; exact ⟨by simp [dedupeIssuesAux], by simp [dedupeIssuesAux]⟩
  | cons v rest ih =>
    intro seen
    by_cases h1 : normWs v.issue = [] ∨ normWs v.solution = []
    · have heq : dedupeIssuesAux seen (v :: rest) = dedupeIssuesAux seen rest := by
        simp only [dedupeIssuesAux]
        rw [if_pos h1]
      rw [heq]
      exact ih seen
    · by_cases h2 : lowerStr (normWs v.issue) ∈ seen
      · have heq : dedupeIssuesAux seen (v :: rest) = dedupeIssuesAux seen rest := by
          simp only [dedupeIssuesAux]
          rw [if_neg h1, if_pos h2]
        rw [heq]
        exact ih seen
      · have heq : dedupeIssuesAux seen (v :: rest) =
            ⟨normWs v.issue, normWs v.solution⟩ ::
              dedupeIssuesAux (lowerStr (normWs v.issue) :: seen) rest := by
          simp only [dedupeIssuesAux]
          rw [if_neg h1, if_neg h2]
        rw [heq]
        obtain ⟨ihmem, ihpw⟩ := ih (lowerStr (normWs v.issue) :: seen)
        constructor
        · intro y hy
          rcases List.mem_cons.mp hy with h3 | h3
          · subst h3
            exact ⟨normWs_idem v.issue, h2⟩
          · obtain ⟨ha, hc⟩ := ihmem y h3
            exact ⟨ha, fun hmem => hc (List.mem_cons_of_mem _ hmem)⟩
        · rw [List.pairwise_cons]
          refine ⟨?_, ihpw⟩
          intro y hy hcontra
          obtain ⟨_, hc⟩ := ihmem y hy
          exact hc (by rw [← hcontra]; exact List.mem_cons_self _ _)

theorem dedupe_take_pairwise (n : Nat) (l : List Str) :
    ((dedupe l).take n).Pairwise
      (fun a b => lowerStr (normWs a) ≠ lowerStr (normWs b)) :=
  List.Pairwise.sublist (List.take_sublist n _) (dedupe_pairwise l)

theorem dedupeIssues_take_pairwise (n : Nat) (l : List CommonIssue) :
    ((dedupeIssues l).take n).Pairwise
      (fun a b => ¬(lowerStr (normWs a.issue) = lowerStr (normWs b.issue) ∧
        lowerStr (normWs a.solution) = lowerStr (normWs b.solution))) := by
  have hpw := (dedupeIssuesAux_props l []).2
  have hpw2 : (dedupeIssues l).Pairwise
      (fun a b => ¬(lowerStr (normWs a.issue) = lowerStr (normWs b.issue) ∧
        lowerStr (normWs a.solution) = lowerStr (normWs b.solution))) := by
    refine hpw.imp_of_mem ?_
    intro a b ha hb hr hcontra
    apply hr
    have h1 := ((dedupeIssuesAux_props l []).1 a ha).1
    have h2 := ((dedupeIssuesAux_props l []).1 b hb).1
    rw [← h1, ← h2]
    exact hcontra.1
  exact List.Pairwise.sublist (List.take_sublist n _) hpw2

theorem dedupeAux_mem_key : ∀ (l seen : List Str) (a : Str),
    a ∈ l → normWs a ≠ [] → lowerStr (normWs a) ∉ seen →
    ∃ y ∈ dedupeAux seen l, lowerStr y = lowerStr (normWs a) := by
  intro l
  induction l with
  | nil => intro seen a ha; exact absurd ha (List.not_mem_nil _)
  | cons v rest ih =>
    intro seen a ha hna hns
    by_cases h1 : normWs v = []
    · have heq : dedupeAux seen (v :: rest) = dedupeAux seen rest := by
        simp only [dedupeAux]
        rw [if_pos h1]
      rw [heq]
      rcases List.mem_cons.mp ha with h3 | h3
      · exact absurd (h3 ▸ hna) (by simp [h1])
      · exact ih seen a h3 hna hns
    · by_cases h2 : lowerStr (normWs v) ∈ seen
      · have heq : dedupeAux seen (v :: rest) = dedupeAux seen rest := by
          simp only [dedupeAux]
          rw [if_neg h1, if_pos h2]
        rw [heq]
        rcases List.mem_cons.mp ha with h3 | h3
        · subst h3
          exact absurd h2 hns
        · exact ih seen a h3 hna hns
      · have heq : dedupeAux seen (v :: rest) =
            normWs v :: dedupeAux (lowerStr (normWs v) :: seen) rest := by
          simp only [dedupeAux]
          rw [if_neg h1, if_neg h2]
        rw [heq]
        rcases List.mem_cons.mp ha with h3 | h3
        · subst h3
          exact ⟨normWs a, List.mem_cons_self _ _, rfl⟩
        · by_cases hk : lowerStr (normWs a) = lowerStr (normWs v)
          · exact ⟨normWs v, List.mem_cons_self _ _, hk.symm⟩
          · obtain ⟨y, hy, hyk⟩ := ih (lowerStr (normWs v) :: seen) a h3 hna
              (by
                intro hmem
                rcases List.mem_cons.mp hmem with h4 | h4
                · exact hk h4
                · exact hns h4)
            exact ⟨y, List.mem_cons_of_mem _ hy, hyk⟩

theorem two_mem_length {α : Type} {l : List α} {a b : α}
    (ha : a ∈ l) (hb : b ∈ l) (hab : a ≠ b) : 2 ≤ l.length := by
  match l with
  | [] => exact absurd ha (List.not_mem_nil _)
  | [x] =>
    exact absurd ((List.mem_singleton.mp ha).trans
      (List.mem_singleton.mp hb).symm) hab
  | x :: y :: rest => simp [List.length_cons]

theorem dedupe_two {l : List Str} {a b : Str} (ha : a ∈ l) (hb : b ∈ l)
    (hna : normWs a ≠ []) (hnb : normWs b ≠ [])
    (hk : lowerStr (normWs a) ≠ lowerStr (normWs b)) :
    2 ≤ (dedupe l).length := by
  obtain ⟨y1, hy1, hk1⟩ := dedupeAux_mem_key l [] a ha hna (by simp)
  obtain ⟨y2, hy2, hk2⟩ := dedupeAux_mem_key l [] b hb hnb (by simp)
  have hne : y1 ≠ y2 := fun he => hk (by rw [← hk1, ← hk2, he])
  exact two_mem_length hy1 hy2 hne

theorem dedupe_pair {a b : Str} (hna : normWs a ≠ []) (hnb : normWs b ≠ [])
    (hk : lowerStr (normWs a) ≠ lowerStr (normWs b)) :
    dedupe [a, b] = [normWs a, normWs b] := by
  show dedupeAux [] [a, b] = _
  simp only [dedupeAux]
  rw [if_neg hna, if_neg (show lowerStr (normWs a) ∉ ([] : List Str) by simp),
    if_neg hnb, if_neg (by
    intro hmem
    rcases List.mem_cons.mp hmem with h4 | h4
    · exact hk h4.symm
    · simp at h4)]

theorem dedupeAux_length_le : ∀ (l seen : List Str),
    (dedupeAux seen l).length ≤ l.length := by
  intro l
  induction l with
  | nil => intro seen; simp [dedupeAux]
  | cons v rest ih =>
    intro seen
    simp only [dedupeAux]
    split
    · exact le_trans (ih seen) (by simp)
    · split
      · exact le_trans (ih seen) (by simp)
      · simpa using ih (lowerStr (normWs v) :: seen)

/-! Head-character facts used to separate the synthesised bullets. -/

theorem normWs_cons_head {c : Char} {t : Str} (hc : jsIsSpace c = false) :
    ∃ t2, normWs (c :: t) = c :: t2 := by
  unfold normWs
  rw [collapseWs_cons_head hc]
  unfold trimWs
  rw [List.dropWhile_cons, if_neg (by simp [hc])]
  obtain ⟨ys, hys⟩ := dropWhile_append_last hc (collapseWs t).reverse
  rw [List.reverse_cons, hys, List.reverse_append]
  exact ⟨ys.reverse, rfl⟩

theorem normWs_ne_nil_of_head {s : Str} {c : Char} {t : Str} (hs : s = c :: t)
    (hc : jsIsSpace c = false) : normWs s ≠ [] := by
  subst hs
  obtain ⟨t2, ht2⟩ := normWs_cons_head hc
  rw [ht2]
  simp

theorem normKey_shape {s : Str} {c : Char} {t : Str} (hs : s = c :: t)
    (hc : jsIsSpace c = false) :
    ∃ u, lowerStr (normWs s) = lcChar c :: u := by
  subst hs
  obtain ⟨t2, ht2⟩ := normWs_cons_head hc (c := c) (t := t)
  exact ⟨lowerStr t2, by rw [ht2]; rfl⟩

theorem objectiveFiller1_shape (name : Str) : objectiveFiller1 name =
    'A' :: ("pply the core skills from ".data ++ name ++
      " with increasing independence.".data) := rfl

theorem objectiveFiller2_shape : objectiveFiller2 =
    'T' :: "roubleshoot one issue at a time before requesting direct help.".data := rfl

theorem buildTaskSequenceObjective_head {tasks : List SessionTask} {s : Str}
    (h : buildTaskSequenceObjective tasks = some s) : ∃ t, s = 'C' :: t := by
  unfold buildTaskSequenceObjective at h
  split at h
  · exact absurd h (by simp)
  · split at h
    · split at h
      · injection h with h1
        exact ⟨_, h1.symm⟩
      · split at h
        · injection h with h1
          exact ⟨_, h1.symm⟩
        · injection h with h1
          exact ⟨_, h1.symm⟩
    · injection h with h1
      exact ⟨_, h1.symm⟩

theorem fillers_two {m : Str} {l : List Str}
    (h1 : objectiveFiller1 m ∈ l) (h2 : objectiveFiller2 ∈ l) :
    2 ≤ (dedupe l).length := by
  obtain ⟨u1, hk1⟩ := normKey_shape (objectiveFiller1_shape m) (by decide)
  obtain ⟨u2, hk2⟩ := normKey_shape objectiveFiller2_shape (by decide)
  refine dedupe_two h1 h2
    (normWs_ne_nil_of_head (objectiveFiller1_shape m) (by decide))
    (normWs_ne_nil_of_head objectiveFiller2_shape (by decide)) ?_
  rw [hk1, hk2]
  intro h
  injection h with h5 _
  exact absurd h5 (by decide)

theorem tso_filler1_two {tasks : List SessionTask} {s m : Str} {l : List Str}
    (hts : buildTaskSequenceObjective tasks = some s)
    (h1 : s ∈ l) (h2 : objectiveFiller1 m ∈ l) : 2 ≤ (dedupe l).length := by
  obtain ⟨tc, htc⟩ := buildTaskSequenceObjective_head hts
  obtain ⟨u1, hk1⟩ := normKey_shape htc (by decide)
  obtain ⟨u2, hk2⟩ := normKey_shape (objectiveFiller1_shape m) (by decide)
  refine dedupe_two h1 h2 (normWs_ne_nil_of_head htc (by decide))
    (normWs_ne_nil_of_head (objectiveFiller1_shape m) (by decide)) ?_
  rw [hk1, hk2]
  intro h
  injection h with h5 _
  exact absurd h5 (by decide)

theorem length_take3_ge_two {l : List Str} (h : 2 ≤ l.length) :
    2 ≤ (l.take 3).length := by
  rw [List.length_take]
  omega

/-- The number of matched common issues is independent of the task list once
    at least one task exists. -/
theorem buildCommonIssues_tasks_irrel {tasks : List SessionTask}
    (h : 0 < tasks.length) (fullText : Str) :
    buildCommonIssues tasks fullText =
      buildCommonIssues [⟨[], []⟩] fullText := by
  unfold buildCommonIssues
  simp [h]

theorem filler_keys_ne (name : Str) :
    lowerStr (normWs (objectiveFiller1 name)) ≠ lowerStr (normWs objectiveFiller2) := by
  obtain ⟨u1, hk1⟩ := normKey_shape (objectiveFiller1_shape name) (by decide)
  obtain ⟨u2, hk2⟩ := normKey_shape objectiveFiller2_shape (by decide)
  rw [hk1, hk2]
  intro h
  injection h with h5 _
  exact absurd h5 (by decide)

theorem take3_le (l : List Str) : ((dedupe l).take 3).length ≤ 3 :=
  List.length_take_le 3 _

theorem take4_le_issues (l : List CommonIssue) :
    ((dedupeIssues l).take 4).length ≤ 4 :=
  List.length_take_le 4 _

/-- C3 counterexample: with no derived objective points the two padding
    pushes produce only 2 bullets (each fires once while the count is below
    3, starting from 0), and with one task and no keyword matches the
    common-issue padding likewise stops at 2 — both below the claimed
    minimum of 3. -/
theorem c3_counterexample :
    (buildObjectivePoints [] [] "Session 10".data).length = 2 ∧
    ¬(3 ≤ (buildObjectivePoints [] [] "Session 10".data).length) ∧
    (buildCommonIssues [⟨"Session 10: Task A".data, []⟩] []).length = 2 ∧
    ¬(3 ≤ (buildCommonIssues [⟨"Session 10: Task A".data, []⟩] []).length) := by
  refine ⟨by rfl, by decide, by rfl, by decide⟩

/-- C3 (amended): the padding guarantees a minimum of 2 entries, not 3:
    `buildObjectivePoints` always returns at least 2 bullets, and exactly 2
    when both the intro pages and the task list are empty (both derivation
    heuristics yield nothing, so only the two fillers remain);
    `buildCommonIssues` returns at least 2 issues whenever at least one
    task exists, exactly 2 when one task exists and no trigger pattern
    matches, and a single issue when the task list is empty and no trigger
    matches (the multi-change filler requires a task). -/
theorem c3_minimums_amended :
    (∀ introPages tasks sessionName,
      2 ≤ (buildObjectivePoints introPages tasks sessionName).length) ∧
    (∀ sessionName, (buildObjectivePoints [] [] sessionName).length = 2) ∧
    (∀ tasks fullText, tasks ≠ [] →
      2 ≤ (buildCommonIssues tasks fullText).length) ∧
    (∀ task, (buildCommonIssues [task] []).length = 2) ∧
    (buildCommonIssues [] []).length = 1 := by
  refine ⟨?_, ?_, ?_, ?_, by rfl⟩
  · intro introPages tasks sessionName
    cases hts : buildTaskSequenceObjective tasks with
    | some tso =>
      cases hfs : firstSentence
          (joinSep " ".data (introPages.map (fun p => p.bodyText))) with
      | some sen =>
        have hform : buildObjectivePoints introPages tasks sessionName =
            (dedupe [tso, toOutcomeBullet sen,
              objectiveFiller1 sessionName]).take 3 := by
          unfold buildObjectivePoints
          rw [hts, hfs]
          rfl
        rw [hform]
        exact length_take3_ge_two (tso_filler1_two (m := sessionName) hts (by simp) (by simp))
      | none =>
        have hform : buildObjectivePoints introPages tasks sessionName =
            (dedupe [tso, objectiveFiller1 sessionName,
              objectiveFiller2]).take 3 := by
          unfold buildObjectivePoints
          rw [hts, hfs]
          rfl
        rw [hform]
        exact length_take3_ge_two (fillers_two (m := sessionName) (by simp) (by simp))
    | none =>
      cases hfs : firstSentence
          (joinSep " ".data (introPages.map (fun p => p.bodyText))) with
      | some sen =>
        have hform : buildObjectivePoints introPages tasks sessionName =
            (dedupe [toOutcomeBullet sen, objectiveFiller1 sessionName,
              objectiveFiller2]).take 3 := by
          unfold buildObjectivePoints
          rw [hts, hfs]
          rfl
        rw [hform]
        exact length_take3_ge_two (fillers_two (m := sessionName) (by simp) (by simp))
      | none =>
        have hform : buildObjectivePoints introPages tasks sessionName =
            (dedupe [objectiveFiller1 sessionName, objectiveFiller2]).take 3 := by
          unfold buildObjectivePoints
          rw [hts, hfs]
          rfl
        rw [hform]
        exact length_take3_ge_two (fillers_two (m := sessionName) (by simp) (by simp))
  · intro sessionName
    have hform : buildObjectivePoints [] [] sessionName =
        (dedupe [objectiveFiller1 sessionName, objectiveFiller2]).take 3 := by rfl
    rw [hform, dedupe_pair
      (normWs_ne_nil_of_head (objectiveFiller1_shape sessionName) (by decide))
      (normWs_ne_nil_of_head objectiveFiller2_shape (by decide))
      (filler_keys_ne sessionName)]
    rfl
  · intro tasks fullText htasks
    have hpos : 0 < tasks.length := List.length_pos.mpr htasks
    rw [buildCommonIssues_tasks_irrel hpos fullText]
    unfold buildCommonIssues
    cases h1 : wordTest "wiring".data (lowerStr fullText) <;>
    cases h2 : (wordTest "upload".data (lowerStr fullText) ||
      wordTest "compile".data (lowerStr fullText)) <;>
    cases h3 : wordTest "keypad".data (lowerStr fullText) <;>
    cases h4 : wordTest "lcd".data (lowerStr fullText) <;>
    decide
  · intro task
    rfl

/-- Witness for the amended C3 theorem at concrete inputs. -/
theorem c3_minimums_amended_witness :
    ([⟨"T".data, []⟩] : List SessionTask) ≠ [] ∧
    2 ≤ (buildCommonIssues [⟨"T".data, []⟩] "wiring text".data).length ∧
    2 ≤ (buildObjectivePoints [] [] "Session 9".data).length :=
  ⟨by decide, c3_minimums_amended.2.2.1 [⟨"T".data, []⟩] "wiring text".data
    (by decide), c3_minimums_amended.1 [] [] "Session 9".data⟩

/-- C5 (confirmed): the synthesised lists respect their caps (3 objective
    bullets, 3 task points, 4 common issues) and contain no two entries
    that agree under the case-insensitive, whitespace-normalised key; the
    matched path of `detectComponents` is likewise duplicate-free. -/
theorem c5_caps_and_dedupe :
    (∀ introPages tasks sessionName,
      (buildObjectivePoints introPages tasks sessionName).length ≤ 3 ∧
      (buildObjectivePoints introPages tasks sessionName).Pairwise
        (fun a b => lowerStr (normWs a) ≠ lowerStr (normWs b))) ∧
    (∀ task, (buildTaskPoints task).length ≤ 3 ∧
      (buildTaskPoints task).Pairwise
        (fun a b => lowerStr (normWs a) ≠ lowerStr (normWs b))) ∧
    (∀ tasks fullText, (buildCommonIssues tasks fullText).length ≤ 4 ∧
      (buildCommonIssues tasks fullText).Pairwise
        (fun a b => ¬(lowerStr (normWs a.issue) = lowerStr (normWs b.issue) ∧
          lowerStr (normWs a.solution) = lowerStr (normWs b.solution)))) ∧
    (∀ text patterns fallback,
      (patterns.filter (fun e => e.pattern text)).map (fun e => e.label) ≠ [] →
      (detectComponents text patterns fallback).Pairwise
        (fun a b => lowerStr (normWs a) ≠ lowerStr (normWs b))) := by
  refine ⟨?_, ?_, ?_, ?_⟩
  · intro introPages tasks sessionName
    exact ⟨take3_le _, dedupe_take_pairwise 3 _⟩
  · intro task
    exact ⟨take3_le _, dedupe_take_pairwise 3 _⟩
  · intro tasks fullText
    exact ⟨take4_le_issues _, dedupeIssues_take_pairwise 4 _⟩
  · intro text patterns fallback hne
    unfold detectComponents
    rw [if_neg hne]
    exact dedupe_pairwise _

/-- Witness for C5 at concrete inputs, including a matched detection path. -/
theorem c5_caps_and_dedupe_witness :
    (buildObjectivePoints [] [] "Session 9".data).length ≤ 3 ∧
    ((HARDWARE_KEYWORDS.filter (fun e => e.pattern "uses a lcd".data)).map
      (fun e => e.label) ≠ []) ∧
    (detectComponents "uses a lcd".data HARDWARE_KEYWORDS []).Pairwise
      (fun a b => lowerStr (normWs a) ≠ lowerStr (normWs b)) :=
  ⟨(c5_caps_and_dedupe.1 [] [] "Session 9".data).1, by decide,
    c5_caps_and_dedupe.2.2.2 "uses a lcd".data HARDWARE_KEYWORDS [] (by decide)⟩


/-! Module-item selection in `buildTeacherNotesForSession` (C6) and the
    task resolution of `resolveTasks` (C7). -/

/-- Stable insertion of a module item into a position-sorted list: together
    with `sortByPos` this models `[...].sort((a, b) => a.position -
    b.position)` (a stable sort ordering by `position`). -/
def insertByPos (x : CanvasModuleItem) :
    List CanvasModuleItem → List CanvasModuleItem
  | [] => [x]
  | y :: ys =>
    if x.position ≤ y.position then x :: y :: ys else y :: insertByPos x ys

def sortByPos : List CanvasModuleItem → List CanvasModuleItem
  | [] => []
  | x :: xs => insertByPos x (sortByPos xs)

def insertPageByPos (x : SessionPageContext) :
    List SessionPageContext → List SessionPageContext
  | [] => [x]
  | y :: ys =>
    if x.position ≤ y.position then x :: y :: ys else y :: insertPageByPos x ys

def sortPagesByPos : List SessionPageContext → List SessionPageContext
  | [] => []
  | x :: xs => insertPageByPos x (sortPagesByPos xs)

/-- The `{ start, endExclusive }` record of `findTeacherNotesRange`;
    `none` for `endExclusive` models `Number.POSITIVE_INFINITY`. -/
structure NotesRange where
  start : Int
  endExclusive : Option Int
deriving DecidableEq

/-- Model of `findTeacherNotesRange`. -/
def findTeacherNotesRange (items : List CanvasModuleItem) :
    Option NotesRange :=
  match (sortByPos items).find? (fun item =>
      item.type == "SubHeader".data &&
      lowerStr (trimWs item.title) == "teachers notes".data) with
  | none => none
  | some header =>
    some ⟨header.position,
      ((sortByPos items).find? (fun item =>
        item.type == "SubHeader".data &&
        decide (header.position < item.position))).map
          (fun nxt => nxt.position)⟩

/-- Model of `isPositionInRange`; a position is inside an unbounded range
    whenever it exceeds `start`. -/
def isPositionInRange (position : Int) : Option NotesRange → Bool
  | none => false
  | some range =>
    decide (range.start < position) &&
    (match range.endExclusive with
     | none => true
     | some e => decide (position < e))

/-- The `pageItems` filter of `buildTeacherNotesForSession`.  The source
    filters the pre-sorted item list and passes that same sorted list to
    `findTeacherNotesRange`, which re-sorts its argument, so passing the
    raw list here is equivalent. -/
def pageItems (pageTitle : Str) (items : List CanvasModuleItem) :
    List CanvasModuleItem :=
  (sortByPos items).filter (fun item =>
    item.type == "Page".data &&
    (match item.page_url with
     | some u => !u.isEmpty
     | none => false) &&
    !(lowerStr (trimWs item.title) == lowerStr (trimWs pageTitle)) &&
    !(occursIn "teacher notes".data (lowerStr item.title)) &&
    !(isPositionInRange item.position (findTeacherNotesRange items)))

/-- One fetched module page (`client.getPage` and field assembly): `none`
    when `toPlainText` throws on the page body, and the `page_url` is
    guaranteed present by the `pageItems` filter. -/
def buildPageContext (fetch : Str → Str) (item : CanvasModuleItem) :
    Option SessionPageContext :=
  match item.page_url with
  | none => none
  | some u =>
    match toPlainText (fetch u) with
    | none => none
    | some txt => some ⟨item.title, u, item.position, fetch u, txt⟩

/-- Sequencing of the per-item fetches (`Promise.all` with exception
    propagation). -/
def optionMapList (f : CanvasModuleItem → Option SessionPageContext) :
    List CanvasModuleItem → Option (List SessionPageContext)
  | [] => some []
  | x :: xs =>
    match f x with
    | none => none
    | some y =>
      match optionMapList f xs with
      | none => none
      | some ys => some (y :: ys)

/-- The `modulePages` computation of `buildTeacherNotesForSession`. -/
def buildModulePages (pageTitle : Str) (items : List CanvasModuleItem)
    (fetch : Str → Str) : Option (List SessionPageContext) :=
  (optionMapList (buildPageContext fetch) (pageItems pageTitle items)).map
    sortPagesByPos

/-- SubHeaders whose titles match `TASK_HEADER_RE`, position-sorted. -/
def taskHeaders (moduleItems : List CanvasModuleItem) :
    List CanvasModuleItem :=
  sortByPos (moduleItems.filter (fun item =>
    item.type == "SubHeader".data && taskHeaderTest item.title))

/-- The page filter of one `resolveTasks` iteration: strictly after the
    current header and strictly before the next header when it exists. -/
def taskPagesFor (modulePages : List SessionPageContext)
    (current : CanvasModuleItem) (next : Option CanvasModuleItem) :
    List SessionPageContext :=
  modulePages.filter (fun page =>
    decide (current.position < page.position) &&
    (match next with
     | none => true
     | some nxt => decide (page.position < nxt.position)))

/-- The loop of `resolveTasks` over the header list: a header whose page
    filter is empty contributes no task. -/
def resolveTasksAux (modulePages : List SessionPageContext) :
    List CanvasModuleItem → List SessionTask
  | [] => []
  | current :: hs =>
    if taskPagesFor modulePages current hs.head? = [] then
      resolveTasksAux modulePages hs
    else
      ⟨current.title, taskPagesFor modulePages current hs.head?⟩ ::
        resolveTasksAux modulePages hs

/-- Model of `resolveTasks`. -/
def resolveTasks (moduleItems : List CanvasModuleItem)
    (modulePages : List SessionPageContext) : List SessionTask :=
  resolveTasksAux modulePages (taskHeaders moduleItems)

/-- Model of `resolveIntroPages`. -/
def resolveIntroPages (moduleItems : List CanvasModuleItem)
    (modulePages : List SessionPageContext) : List SessionPageContext :=
  match moduleItems.find? (fun item =>
      item.type == "SubHeader".data && taskHeaderTest item.title) with
  | none => modulePages.take 2
  | some firstTask =>
    modulePages.filter (fun page => decide (page.position < firstTask.position))

theorem mem_insertPageByPos (x y : SessionPageContext) :
    ∀ l : List SessionPageContext,
      (y ∈ insertPageByPos x l ↔ y = x ∨ y ∈ l) := by
  intro l
  induction l with
  | nil => simp [insertPageByPos]
  | cons z zs ih =>
    by_cases hc : x.position ≤ z.position
    · rw [insertPageByPos, if_pos hc]
      simp [List.mem_cons]
    · rw [insertPageByPos, if_neg hc]
      simp only [List.mem_cons, ih]
      tauto

theorem mem_sortPagesByPos (y : SessionPageContext) :
    ∀ l : List SessionPageContext, (y ∈ sortPagesByPos l ↔ y ∈ l) := by
  intro l
  induction l with
  | nil => simp [sortPagesByPos]
  | cons z zs ih =>
    rw [sortPagesByPos, mem_insertPageByPos]
    simp only [List.mem_cons, ih]

theorem optionMapList_mem {f : CanvasModuleItem → Option SessionPageContext} :
    ∀ {l : List CanvasModuleItem} {ys : List SessionPageContext}
      {y : SessionPageContext},
      optionMapList f l = some ys → y ∈ ys → ∃ a ∈ l, f a = some y := by
  intro l
  induction l with
  | nil =>
    intro ys y h hy
    cases ys with
    | nil => exact absurd hy (List.not_mem_nil y)
    | cons b bs =>
      exact absurd (Option.some.inj h) (by simp)
  | cons a l ih =>
    intro ys y h hy
    rw [optionMapList] at h
    cases hfa : f a with
    | none =>
      rw [hfa] at h
      exact Option.noConfusion h
    | some b =>
      rw [hfa] at h
      cases hol : optionMapList f l with
      | none =>
        rw [hol] at h
        exact Option.noConfusion h
      | some bs =>
        rw [hol] at h
        have hys : b :: bs = ys := Option.some.inj h
        rw [← hys] at hy
        cases List.mem_cons.mp hy with
        | inl h1 =>
          exact ⟨a, List.mem_cons_self a l, by rw [hfa, h1]⟩
        | inr h2 =>
          obtain ⟨a2, ha2, hfa2⟩ := ih hol h2
          exact ⟨a2, List.mem_cons_of_mem a ha2, hfa2⟩

/-- C6 (confirmed): every page of `modulePages` has a title that differs
    from the target page title under trim-and-lowercase comparison, a title
    with no case-insensitive "teacher notes" substring, and a position not
    strictly inside the existing Teachers-Notes range. -/
theorem c6_modulePages_invariants (pageTitle : Str)
    (items : List CanvasModuleItem) (fetch : Str → Str)
    (pages : List SessionPageContext)
    (h : buildModulePages pageTitle items fetch = some pages) :
    ∀ p ∈ pages,
      lowerStr (trimWs p.title) ≠ lowerStr (trimWs pageTitle) ∧
      occursIn "teacher notes".data (lowerStr p.title) = false ∧
      isPositionInRange p.position (findTeacherNotesRange items) = false := by
  intro p hp
  unfold buildModulePages at h
  cases hol : optionMapList (buildPageContext fetch)
      (pageItems pageTitle items) with
  | none =>
    rw [hol] at h
    exact Option.noConfusion h
  | some ys =>
    rw [hol] at h
    have hpg : sortPagesByPos ys = pages := Option.some.inj h
    rw [← hpg] at hp
    have hpy : p ∈ ys := (mem_sortPagesByPos p ys).mp hp
    obtain ⟨a, ha, hfa⟩ := optionMapList_mem hol hpy
    unfold pageItems at ha
    have hpred := (List.mem_filter.mp ha).2
    unfold buildPageContext at hfa
    cases hurl : a.page_url with
    | none =>
      rw [hurl] at hfa
      exact Option.noConfusion hfa
    | some u =>
      rw [hurl] at hfa
      have hfa2 : (match toPlainText (fetch u) with
          | none => none
          | some txt => some (⟨a.title, u, a.position, fetch u, txt⟩ :
              SessionPageContext)) = some p := hfa
      cases htxt : toPlainText (fetch u) with
      | none =>
        rw [htxt] at hfa2
        exact Option.noConfusion hfa2
      | some txt =>
        rw [htxt] at hfa2
        have hpeq : (⟨a.title, u, a.position, fetch u, txt⟩ :
            SessionPageContext) = p := Option.some.inj hfa2
        have htp : p.title = a.title := by rw [← hpeq]
        have hpp : p.position = a.position := by rw [← hpeq]
        simp only [Bool.and_eq_true, Bool.not_eq_true'] at hpred
        refine ⟨?_, ?_, ?_⟩
        · rw [htp]
          exact ne_of_beq_false hpred.1.1.2
        · rw [htp]
          exact hpred.1.2
        · rw [hpp]
          exact hpred.2

def demoTargetTitle : Str := "Teacher Notes: Session 03".data

def demoItems : List CanvasModuleItem :=
  [⟨1, " teacher notes: session 03".data, "Page".data, 1, some "dup".data⟩,
   ⟨2, "Intro".data, "Page".data, 2, some "intro".data⟩,
   ⟨3, "Teachers Notes".data, "SubHeader".data, 3, none⟩,
   ⟨4, "Session 03 teacher notes archive".data, "Page".data, 4,
     some "x".data⟩]

def demoFetch : Str → Str := fun _ => "ok".data

def demoPage : SessionPageContext :=
  ⟨"Intro".data, "intro".data, 2, "ok".data, "ok".data⟩

/-- Closed instance of the C6 theorem: the identically-titled page, the
    "teacher notes" page and the in-range page are all excluded. -/
theorem c6_modulePages_invariants_witness :
    buildModulePages demoTargetTitle demoItems demoFetch = some [demoPage] ∧
    ∀ p ∈ [demoPage],
      lowerStr (trimWs p.title) ≠ lowerStr (trimWs demoTargetTitle) ∧
      occursIn "teacher notes".data (lowerStr p.title) = false ∧
      isPositionInRange p.position (findTeacherNotesRange demoItems) =
        false :=
  ⟨by rfl, c6_modulePages_invariants demoTargetTitle demoItems demoFetch
    [demoPage] (by rfl)⟩

theorem resolveTasksAux_spec (mp : List SessionPageContext) :
    ∀ hs : List CanvasModuleItem, ∀ t ∈ resolveTasksAux mp hs,
      t.pages ≠ [] ∧
      ∃ pre current suf, hs = pre ++ current :: suf ∧
        t.title = current.title ∧
        t.pages = taskPagesFor mp current suf.head? ∧
        ∀ p ∈ t.pages, current.position < p.position ∧
          ∀ nxt, suf.head? = some nxt → p.position < nxt.position := by
  intro hs
  induction hs with
  | nil =>
    intro t ht
    exact absurd ht (List.not_mem_nil t)
  | cons current hs ih =>
    intro t ht
    by_cases hcase : taskPagesFor mp current hs.head? = []
    · simp only [resolveTasksAux] at ht
      rw [if_pos hcase] at ht
      obtain ⟨hne, pre, cur2, suf, hdecomp, hti, hpg, hbound⟩ := ih t ht
      exact ⟨hne, current :: pre, cur2, suf, by rw [hdecomp]; rfl, hti, hpg,
        hbound⟩
    · simp only [resolveTasksAux] at ht
      rw [if_neg hcase] at ht
      cases List.mem_cons.mp ht with
      | inl heq =>
        subst heq
        refine ⟨hcase, [], current, hs, rfl, rfl, rfl, ?_⟩
        intro p hp
        have hp2 : p ∈ taskPagesFor mp current hs.head? := hp
        have hpred := (List.mem_filter.mp hp2).2
        simp only [Bool.and_eq_true, decide_eq_true_eq] at hpred
        refine ⟨hpred.1, ?_⟩
        intro nxt hnxt
        have h2 := hpred.2
        rw [hnxt] at h2
        exact of_decide_eq_true h2
      | inr hrec =>
        obtain ⟨hne, pre, cur2, suf, hdecomp, hti, hpg, hbound⟩ := ih t hrec
        exact ⟨hne, current :: pre, cur2, suf, by rw [hdecomp]; rfl, hti, hpg,
          hbound⟩

/-- C7 (confirmed): every task returned by `resolveTasks` has a nonempty
    page list, and each of its pages lies strictly after the task's header
    position and strictly before the next header's position when a next
    header exists. -/
theorem c7_resolveTasks_bounds (moduleItems : List CanvasModuleItem)
    (modulePages : List SessionPageContext) :
    ∀ t ∈ resolveTasks moduleItems modulePages,
      t.pages ≠ [] ∧
      ∃ pre current suf,
        taskHeaders moduleItems = pre ++ current :: suf ∧
        t.title = current.title ∧
        ∀ p ∈ t.pages, current.position < p.position ∧
          ∀ nxt, suf.head? = some nxt → p.position < nxt.position := by
  intro t ht
  obtain ⟨hne, pre, current, suf, hdecomp, hti, _, hbound⟩ :=
    resolveTasksAux_spec modulePages (taskHeaders moduleItems) t ht
  exact ⟨hne, pre, current, suf, hdecomp, hti, hbound⟩

def demoTaskItems : List CanvasModuleItem :=
  [⟨1, "Session 03: Task A".data, "SubHeader".data, 1, none⟩,
   ⟨2, "Session 03: Task B".data, "SubHeader".data, 3, none⟩]

def demoTaskPages : List SessionPageContext :=
  [⟨"P1".data, "p1".data, 2, [], []⟩, ⟨"P2".data, "p2".data, 4, [], []⟩]

/-- Closed instance of the C7 theorem at a two-header module. -/
theorem c7_resolveTasks_bounds_witness :
    (⟨"Session 03: Task A".data, [⟨"P1".data, "p1".data, 2, [], []⟩]⟩ :
        SessionTask) ∈ resolveTasks demoTaskItems demoTaskPages ∧
    ((⟨"Session 03: Task A".data, [⟨"P1".data, "p1".data, 2, [], []⟩]⟩ :
        SessionTask).pages ≠ [] ∧
      ∃ pre current suf,
        taskHeaders demoTaskItems = pre ++ current :: suf ∧
        (⟨"Session 03: Task A".data,
            [⟨"P1".data, "p1".data, 2, [], []⟩]⟩ : SessionTask).title =
          current.title ∧
        ∀ p ∈ (⟨"Session 03: Task A".data,
            [⟨"P1".data, "p1".data, 2, [], []⟩]⟩ : SessionTask).pages,
          current.position < p.position ∧
          ∀ nxt, suf.head? = some nxt → p.position < nxt.position) :=
  ⟨by decide, c7_resolveTasks_bounds demoTaskItems demoTaskPages _
    (by decide)⟩

/-! The `firstSentence` fallback path (C10) and the task-sequence
    objective (C8). -/

/-- C10 (counterexample): on `"hi all!"` the whitespace-normalised text is
    nonempty and no split part cleans to length at least 20, yet
    `firstSentence` returns `none` rather than the cleaned text with a
    period: `cleanupSentence` empties the whole text, so the claimed
    unconditional fallback fails. -/
theorem c10_counterexample :
    normWs "hi all!".data ≠ [] ∧
    (∀ part ∈ splitSentences (normWs "hi all!".data),
      (cleanupSentence part).length < 20) ∧
    firstSentence "hi all!".data = none :=
  ⟨by decide, by decide, by rfl⟩

/-- C10 (amended): if the whitespace-normalised text is nonempty, no part of
    the sentence split cleans to length at least 20, and the cleanup of the
    whole normalised text is also nonempty, then `firstSentence` returns that
    cleanup with a period appended unconditionally; in particular
    `firstSentence "Hi."` is `some "Hi.."`, ending in doubled punctuation. -/
theorem c10_fallback_amended :
    (∀ text : Str, normWs text ≠ [] →
      (∀ part ∈ splitSentences (normWs text),
        (cleanupSentence part).length < 20) →
      cleanupSentence (normWs text) ≠ [] →
      firstSentence text = some (cleanupSentence (normWs text) ++ ['.'])) ∧
    firstSentence "Hi.".data = some "Hi..".data := by
  constructor
  · intro text h1 h2 h3
    unfold firstSentence
    rw [if_neg h1]
    have hfind : (splitSentences (normWs text)).findSome? (fun raw =>
        if 20 ≤ (cleanupSentence raw).length then
          some (if endsTerminal (cleanupSentence raw) then cleanupSentence raw
            else cleanupSentence raw ++ ['.'])
        else none) = none :=
      List.findSome?_eq_none_iff.mpr (fun raw hraw => by
        rw [if_neg (Nat.not_le.mpr (h2 raw hraw))])
    rw [hfind]
    show (if (cleanupSentence (normWs text)).length ≠ 0 then
        some (cleanupSentence (normWs text) ++ ['.']) else none) =
      some (cleanupSentence (normWs text) ++ ['.'])
    rw [if_pos (fun h0 => h3 (List.length_eq_zero.mp h0))]
  · rfl

/-- Closed instance of the amended C10 theorem at `"Hi."`. -/
theorem c10_fallback_amended_witness :
    normWs "Hi.".data ≠ [] ∧
    (∀ part ∈ splitSentences (normWs "Hi.".data),
      (cleanupSentence part).length < 20) ∧
    cleanupSentence (normWs "Hi.".data) ≠ [] ∧
    firstSentence "Hi.".data =
      some (cleanupSentence (normWs "Hi.".data) ++ ['.']) :=
  ⟨by decide, by decide, by decide,
    c10_fallback_amended.1 "Hi.".data (by decide) (by decide) (by decide)⟩

/-- If mapping `f` over `l` yields `prs.map some`, the `filterMap` of `f`
    over `l` is exactly `prs`. -/
theorem filterMap_eq_of_map_some {α β : Type} {f : α → Option β} :
    ∀ {l : List α} {prs : List β},
      l.map f = prs.map some → l.filterMap f = prs := by
  intro l
  induction l with
  | nil =>
    intro prs h
    cases prs with
    | nil => rfl
    | cons b bs => exact absurd h (by simp)
  | cons a l ih =>
    intro prs h
    cases prs with
    | nil => exact absurd h (by simp)
    | cons b bs =>
      simp only [List.map_cons, List.cons.injEq] at h
      rw [List.filterMap_cons_some h.1, ih h.2]

/-- A member on which `f` returns `none` makes the `filterMap` strictly
    shorter than the list. -/
theorem filterMap_lt_of_none {α β : Type} {f : α → Option β} :
    ∀ {l : List α},
      (∃ a ∈ l, f a = none) → (l.filterMap f).length < l.length := by
  intro l
  induction l with
  | nil =>
    rintro ⟨a, ha, _⟩
    exact absurd ha (List.not_mem_nil a)
  | cons a l ih =>
    rintro ⟨b, hb, hfb⟩
    cases List.mem_cons.mp hb with
    | inl hba =>
      rw [hba] at hfb
      rw [List.filterMap_cons_none hfb]
      exact Nat.lt_succ_of_le (List.length_filterMap_le f l)
    | inr hbl =>
      cases hfa : f a with
      | none =>
        rw [List.filterMap_cons_none hfa]
        exact Nat.lt_succ_of_le (List.length_filterMap_le f l)
      | some c =>
        rw [List.filterMap_cons_some hfa]
        exact Nat.succ_lt_succ (ih ⟨b, hbl, hfb⟩)

/-- C8 (confirmed): for a nonempty task list in which every title parses and
    all parsed session labels agree case-insensitively,
    `buildTaskSequenceObjective` returns
    `"Complete <label>: Task <l1/l2/...>."`; for a nonempty list in which
    some title fails to parse or two parsed labels differ, it returns the
    generic bullet; and the Session 03 scenario yields exactly
    `"Complete Session 03: Task A/B."`. -/
theorem c8_task_sequence :
    (∀ tasks : List SessionTask, ∀ prs : List (Str × Str),
      ∀ p0 : Str × Str, ∀ rest : List (Str × Str),
      tasks ≠ [] →
      tasks.map (fun t => parseTaskHeader t.title) = prs.map some →
      prs = p0 :: rest →
      (∀ q ∈ prs, lowerStr q.1 = lowerStr p0.1) →
      buildTaskSequenceObjective tasks =
        some ("Complete ".data ++ p0.1 ++ ": Task ".data ++
          joinSep "/".data (prs.map (fun q => q.2)) ++ ".".data)) ∧
    (∀ tasks : List SessionTask, tasks ≠ [] →
      ((∃ t ∈ tasks, parseTaskHeader t.title = none) ∨
        (∃ t1 ∈ tasks, ∃ t2 ∈ tasks, ∃ p1 p2,
          parseTaskHeader t1.title = some p1 ∧
          parseTaskHeader t2.title = some p2 ∧
          lowerStr p1.1 ≠ lowerStr p2.1)) →
      buildTaskSequenceObjective tasks = some (genericTaskSequence tasks)) ∧
    buildTaskSequenceObjective
        [⟨"Session 03: Task A".data, []⟩, ⟨"Session 03: Task B".data, []⟩] =
      some "Complete Session 03: Task A/B.".data := by
  refine ⟨?_, ?_, by rfl⟩
  · intro tasks prs p0 rest hne hmap hprs hlab
    have hfm : tasks.filterMap (fun t => parseTaskHeader t.title) = prs :=
      filterMap_eq_of_map_some hmap
    have hlen : prs.length = tasks.length := by
      have h := congrArg List.length hmap
      simp only [List.length_map] at h
      exact h.symm
    have hall : ((p0 :: rest).all
        (fun q => lowerStr q.1 == lowerStr p0.1)) = true :=
      List.all_eq_true.mpr (fun q hq =>
        beq_iff_eq.mpr (hlab q (by rw [hprs]; exact hq)))
    unfold buildTaskSequenceObjective
    rw [if_neg hne, hfm, hprs, if_pos (by rw [← hprs]; exact hlen)]
    show (if ((p0 :: rest).all
          (fun q => lowerStr q.1 == lowerStr p0.1)) = true then
        some ("Complete ".data ++ p0.1 ++ ": Task ".data ++
          joinSep "/".data ((p0 :: rest).map (fun q => q.2)) ++ ".".data)
      else some (genericTaskSequence tasks)) =
      some ("Complete ".data ++ p0.1 ++ ": Task ".data ++
        joinSep "/".data ((p0 :: rest).map (fun q => q.2)) ++ ".".data)
    rw [if_pos hall]
  · intro tasks hne hbad
    unfold buildTaskSequenceObjective
    rw [if_neg hne]
    rcases hbad with ⟨t, ht, hnone⟩ | ⟨t1, ht1, t2, ht2, p1, p2, hp1, hp2, hlab⟩
    · rw [if_neg (Nat.ne_of_lt (filterMap_lt_of_none ⟨t, ht, hnone⟩))]
    · by_cases hlen :
        (tasks.filterMap (fun t => parseTaskHeader t.title)).length =
          tasks.length
      · rw [if_pos hlen]
        cases hfm : tasks.filterMap (fun t => parseTaskHeader t.title) with
        | nil => rfl
        | cons p0 ps =>
          have hmem1 : p1 ∈ p0 :: ps := by
            rw [← hfm]
            exact List.mem_filterMap.mpr ⟨t1, ht1, hp1⟩
          have hmem2 : p2 ∈ p0 :: ps := by
            rw [← hfm]
            exact List.mem_filterMap.mpr ⟨t2, ht2, hp2⟩
          have hall : ¬(((p0 :: ps).all
              (fun q => lowerStr q.1 == lowerStr p0.1)) = true) := by
            intro hcontra
            have hforall := List.all_eq_true.mp hcontra
            have e1 := beq_iff_eq.mp (hforall p1 hmem1)
            have e2 := beq_iff_eq.mp (hforall p2 hmem2)
            exact hlab (e1.trans e2.symm)
          show (if ((p0 :: ps).all
                (fun q => lowerStr q.1 == lowerStr p0.1)) = true then
              some ("Complete ".data ++ p0.1 ++ ": Task ".data ++
                joinSep "/".data ((p0 :: ps).map (fun q => q.2)) ++ ".".data)
            else some (genericTaskSequence tasks)) =
            some (genericTaskSequence tasks)
          rw [if_neg hall]
      · rw [if_neg hlen]

/-- Closed instance of the C8 theorem at the two-task Session 03 scenario. -/
theorem c8_task_sequence_witness :
    (([⟨"Session 03: Task A".data, []⟩, ⟨"Session 03: Task B".data, []⟩] :
        List SessionTask) ≠ []) ∧
    (([⟨"Session 03: Task A".data, []⟩, ⟨"Session 03: Task B".data, []⟩] :
        List SessionTask).map (fun t => parseTaskHeader t.title) =
      [(("Session 03".data, "A".data) : Str × Str),
        ("Session 03".data, "B".data)].map some) ∧
    buildTaskSequenceObjective
        [⟨"Session 03: Task A".data, []⟩, ⟨"Session 03: Task B".data, []⟩] =
      some ("Complete ".data ++ "Session 03".data ++ ": Task ".data ++
        joinSep "/".data ([(("Session 03".data, "A".data) : Str × Str),
          ("Session 03".data, "B".data)].map (fun q => q.2)) ++ ".".data) :=
  ⟨by decide, by decide,
    c8_task_sequence.1
      [⟨"Session 03: Task A".data, []⟩, ⟨"Session 03: Task B".data, []⟩]
      [("Session 03".data, "A".data), ("Session 03".data, "B".data)]
      ("Session 03".data, "A".data) [("Session 03".data, "B".data)]
      (by decide) (by decide) rfl (by decide)⟩

/-! The CLI draft-title transformation (C9). -/

/-- Removal of trailing whitespace. -/
def trimEndWs (l : Str) : Str := (l.reverse.dropWhile jsIsSpace).reverse

/-- Case-insensitive suffix test. -/
def endsWithCI (pat l : Str) : Bool := eqCI pat.reverse (l.reverse.take pat.length)

/-- Model of the test `/\(draft\)\s*$/i.test(raw)`: after stripping trailing
    whitespace the title ends in `(draft)` case-insensitively. -/
def draftTailTest (l : Str) : Bool := endsWithCI "(draft)".data (trimEndWs l)

/-- Model of the `pageTitle` computation of the `teacher-notes` CLI action. -/
def effectiveTitle (isDraftMode : Bool) (raw : Str) : Str :=
  if isDraftMode && !draftTailTest raw then raw ++ " (Draft)".data else raw

theorem draftTailTest_append (raw : Str) :
    draftTailTest (raw ++ " (Draft)".data) = true := by
  have h2 : trimEndWs (raw ++ " (Draft)".data) = raw ++ " (Draft)".data := by
    unfold trimEndWs
    rw [List.reverse_append]
    have h3 : (" (Draft)".data.reverse ++ raw.reverse).dropWhile jsIsSpace =
        " (Draft)".data.reverse ++ raw.reverse := by
      show ((')' :: "tfarD( ".data) ++ raw.reverse).dropWhile jsIsSpace =
        (')' :: "tfarD( ".data) ++ raw.reverse
      rw [List.cons_append, List.dropWhile_cons, if_neg (by decide)]
    rw [h3, List.reverse_append, List.reverse_reverse, List.reverse_reverse]
  unfold draftTailTest endsWithCI
  rw [h2, List.reverse_append]
  rw [show (" (Draft)".data.reverse ++ raw.reverse).take "(draft)".data.length =
      " (Draft)".data.reverse.take "(draft)".data.length from by
    have h5 : " (Draft)".data.reverse =
        " (Draft)".data.reverse.take "(draft)".data.length ++
        " (Draft)".data.reverse.drop "(draft)".data.length :=
      (List.take_append_drop _ _).symm
    conv_lhs => rw [h5, List.append_assoc]
    rw [List.take_left' (by decide)]]
  decide

/-- C9 (confirmed): in draft mode a title not already ending in "(Draft)"
    (case-insensitive, ignoring trailing whitespace) gets " (Draft)"
    appended exactly once ("Notes" becomes "Notes (Draft)"), a title already
    ending in "(Draft)" is left unchanged, and the transformation is
    idempotent. -/
theorem c9_draft_title :
    effectiveTitle true "Notes".data = "Notes (Draft)".data ∧
    (∀ raw : Str, draftTailTest raw = true → effectiveTitle true raw = raw) ∧
    (∀ b : Bool, ∀ raw : Str,
      effectiveTitle b (effectiveTitle b raw) = effectiveTitle b raw) := by
  refine ⟨by rfl, ?_, ?_⟩
  · intro raw h
    unfold effectiveTitle
    rw [h]
    rfl
  · intro b raw
    cases b with
    | false => rfl
    | true =>
      by_cases h : draftTailTest raw = true
      · have hinner : effectiveTitle true raw = raw := by
          unfold effectiveTitle
          rw [h]
          rfl
        rw [hinner, hinner]
      · have h2 : draftTailTest raw = false := by
          cases hd : draftTailTest raw with
          | false => rfl
          | true => exact absurd hd h
        have hinner : effectiveTitle true raw = raw ++ " (Draft)".data := by
          unfold effectiveTitle
          rw [h2]
          rfl
        have houter : effectiveTitle true (raw ++ " (Draft)".data) =
            raw ++ " (Draft)".data := by
          unfold effectiveTitle
          rw [draftTailTest_append raw]
          rfl
        rw [hinner]
        exact houter

/-- Closed instance of the C9 theorem at "Notes" and "Notes (Draft)". -/
theorem c9_draft_title_witness :
    draftTailTest "Notes (Draft)".data = true ∧
    effectiveTitle true "Notes (Draft)".data = "Notes (Draft)".data ∧
    effectiveTitle true (effectiveTitle true "Notes".data) =
      effectiveTitle true "Notes".data :=
  ⟨by decide, c9_draft_title.2.1 "Notes (Draft)".data (by decide),
    c9_draft_title.2.2 true "Notes".data⟩

/-! The renderer and the full synthesis pipeline (C1). -/

def sessionObjectiveLead : Str :=
  "By the end of the session, students should be able to:".data

def sessionTeacherFocus : Str :=
  "Encourage students to explain their thinking, test ideas independently, and iterate before asking for direct fixes.".data

def taskTeacherFocus : Str :=
  "Prompt students to predict outcomes, test one change at a time, and justify their debugging decisions.".data

def troubleshootingClose : Str :=
  "Keep students in a troubleshooting cycle: inspect, test, adjust, then re-test.".data

structure TaskDifferentiation where
  beginner : Str
  extension : Str
deriving DecidableEq

def diffCustom : TaskDifferentiation :=
  ⟨"Edit one provided custom character pattern (for example, change a smiley face) and display it correctly on the LCD.".data,
   "Design two original custom characters and alternate them as a short animation or status indicator.".data⟩

def diffKeypad : TaskDifferentiation :=
  ⟨"Read one key press in Serial Monitor and verify each key prints the correct value.".data,
   "Build a 4-digit PIN check with a clear/reset key and a simple lockout after three incorrect attempts.".data⟩

def diffTheory : TaskDifferentiation :=
  ⟨"Label the key LCD or circuit pins used in class and explain one function for each pin.".data,
   "Predict how changing one parameter (for example contrast or delay) will affect output, then test and record the result.".data⟩

def diffWiring : TaskDifferentiation :=
  ⟨"Follow the class wiring diagram exactly, then upload a fixed message such as HELLO to confirm the setup works.".data,
   "Modify the sketch to rotate between two messages or show a simple counter updated every second.".data⟩

def diffDefault : TaskDifferentiation :=
  ⟨"Make one small tweak to the working example (text, delay, or one variable) and verify the result.".data,
   "Add one extra feature of your choice and explain what changed in your code or wiring.".data⟩

def diffContext (task : SessionTask) : Str :=
  lowerStr (task.title ++ " ".data ++
    joinSep " ".data (task.pages.map (fun p => p.title)) ++ " ".data ++
    joinSep " ".data (task.pages.map (fun p => p.bodyText)))

def diffTitleContext (task : SessionTask) : Str :=
  lowerStr (task.title ++ " ".data ++
    joinSep " ".data (task.pages.map (fun p => p.title)))

/-- Model of `buildTaskDifferentiation`. -/
def buildTaskDifferentiation (task : SessionTask) : TaskDifferentiation :=
  if wordTestCI "custom".data (diffContext task) ||
      wordTestCI "character".data (diffContext task) then diffCustom
  else if wordTestCI "keypad".data (diffContext task) ||
      wordTestCI "3x4".data (diffContext task) ||
      wordTestCI "matrix".data (diffContext task) then diffKeypad
  else if howWorkTest (diffTitleContext task) ||
      wordTestCI "theory".data (diffTitleContext task) ||
      wordTestCI "concept".data (diffTitleContext task) then diffTheory
  else if wordTestCI "wiring".data (diffContext task) ||
      wordTestCI "lcd".data (diffContext task) then diffWiring
  else diffDefault

def liLines (pts : List Str) : List Str :=
  pts.map (fun point => "<li><p>".data ++ escapeHtml point ++ "</p></li>".data)

/-- The lines pushed for one task in `renderTeacherNotesHtml`. -/
def taskLines (task : SessionTask) : List Str :=
  ["<hr />".data,
   "<h3>".data ++ escapeHtml task.title ++ "</h3>".data,
   "<p>".data ++ escapeHtml (buildTaskSummary task) ++ "</p>".data] ++
  (if buildTaskPoints task = [] then []
   else ["<p>Key points to reinforce:</p>".data, "<ul>".data] ++
     liLines (buildTaskPoints task) ++ ["</ul>".data]) ++
  ["<p><strong>Differentiation:</strong></p>".data,
   "<ul>".data,
   "<li><p><strong>Beginners (Year 7):</strong> ".data ++
     escapeHtml (buildTaskDifferentiation task).beginner ++ "</p></li>".data,
   "<li><p><strong>Extension (confident students / Year 10):</strong> ".data ++
     escapeHtml (buildTaskDifferentiation task).extension ++ "</p></li>".data,
   "</ul>".data,
   "<p><strong>Teacher focus:</strong> ".data ++ escapeHtml taskTeacherFocus ++
     "</p>".data]

/-- The lines pushed for one common issue in `renderTeacherNotesHtml`. -/
def issueLines (issue : CommonIssue) : List Str :=
  ["<li>".data,
   "<p>".data ++ escapeHtml issue.issue ++ "</p>".data,
   "<ul>".data,
   "<li><p><strong>Solution:</strong> ".data ++ escapeHtml issue.solution ++
     "</p></li>".data,
   "</ul>".data,
   "</li>".data]

def softwareFallback : List Str := ["Arduino IDE".data, "Serial Monitor".data]

def hardwareFallback : List Str :=
  ["LCD screen module".data, "3x4 matrix keypad".data,
   "NodeMCU ESP32 board".data]

/-- All lines after the `<h2>` heading of `renderTeacherNotesHtml`. -/
def renderLinesTail (sessionName : Str) (moduleItems : List CanvasModuleItem)
    (modulePages : List SessionPageContext) : List Str :=
  ["<h3>Main Session Objective</h3>".data,
   "<p>".data ++ escapeHtml sessionObjectiveLead ++ "</p>".data,
   "<ul>".data] ++
  liLines (buildObjectivePoints (resolveIntroPages moduleItems modulePages)
    (resolveTasks moduleItems modulePages) sessionName) ++
  ["</ul>".data,
   "<p><strong>Teacher focus:</strong> ".data ++
     escapeHtml sessionTeacherFocus ++ "</p>".data,
   "<hr />".data,
   "<h3>Components &amp; Software Required</h3>".data,
   "<p><strong>Software:</strong></p>".data,
   "<ul>".data] ++
  liLines (detectComponents
    (joinSep "\n".data (modulePages.map (fun p => p.bodyText)))
    SOFTWARE_KEYWORDS softwareFallback) ++
  ["</ul>".data,
   "<p><strong>Hardware:</strong></p>".data,
   "<ul>".data] ++
  liLines (detectComponents
    (joinSep "\n".data (modulePages.map (fun p => p.bodyText)))
    HARDWARE_KEYWORDS hardwareFallback) ++
  ["</ul>".data] ++
  List.flatten ((resolveTasks moduleItems modulePages).map taskLines) ++
  ["<hr />".data,
   "<h3>Most Common Issues</h3>".data,
   "<ul>".data] ++
  List.flatten ((buildCommonIssues (resolveTasks moduleItems modulePages)
    (joinSep "\n".data (modulePages.map (fun p => p.bodyText)))).map
      issueLines) ++
  ["</ul>".data,
   "<p>".data ++ escapeHtml troubleshootingClose ++ "</p>".data]

/-- Model of `renderTeacherNotesHtml`: the pushed lines joined with a
    newline; the first line is split out so the document provably starts
    with `<h2>`. -/
def renderLines (pageTitle sessionName : Str)
    (moduleItems : List CanvasModuleItem)
    (modulePages : List SessionPageContext) : List Str :=
  ("<h2>".data ++ (escapeHtml pageTitle ++ "</h2>".data)) ::
    renderLinesTail sessionName moduleItems modulePages

def renderTeacherNotesHtml (pageTitle sessionName : Str)
    (moduleItems : List CanvasModuleItem)
    (modulePages : List SessionPageContext) : Str :=
  joinSep "\n".data (renderLines pageTitle sessionName moduleItems modulePages)

/-- The pure synthesis pipeline of `buildTeacherNotesForSession`: select the
    module pages, fetch and decode each body with `toPlainText`, then
    render. -/
def buildNotesPure (pageTitle sessionName : Str)
    (items : List CanvasModuleItem) (fetch : Str → Str) : Option Str :=
  match buildModulePages pageTitle items fetch with
  | none => none
  | some pages =>
    some (renderTeacherNotesHtml pageTitle sessionName (sortByPos items) pages)

theorem startsWithStr_append2 (pat t : Str) :
    startsWithStr pat (pat ++ t) = true := by
  unfold startsWithStr
  rw [List.take_left' rfl]
  exact beq_self_eq_true pat

theorem startsWithStr_trans {pat l : Str} (h : startsWithStr pat l = true)
    (t : Str) : startsWithStr pat (l ++ t) = true := by
  have hp : pat = l.take pat.length := eq_of_beq h
  have hl : l = pat ++ l.drop pat.length := by
    conv_lhs => rw [← List.take_append_drop pat.length l]
    rw [← hp]
  rw [hl, List.append_assoc]
  exact startsWithStr_append2 pat _

theorem occursIn_nil_pat : ∀ t : Str, occursIn [] t = true := by
  intro t
  cases t with
  | nil => rfl
  | cons c r =>
    show (startsWithStr [] (c :: r) || occursIn [] r) = true
    rw [Bool.or_eq_true]
    exact Or.inl rfl

theorem occursIn_append_right (pat t : Str) :
    ∀ s : Str, occursIn pat s = true → occursIn pat (s ++ t) = true := by
  intro s
  induction s with
  | nil =>
    intro h
    have hp : pat = [] := eq_of_beq h
    rw [hp]
    exact occursIn_nil_pat t
  | cons c s ih =>
    intro h
    rw [show occursIn pat (c :: s) =
      (startsWithStr pat (c :: s) || occursIn pat s) from rfl] at h
    show (startsWithStr pat (c :: (s ++ t)) || occursIn pat (s ++ t)) = true
    rw [Bool.or_eq_true] at h ⊢
    cases h with
    | inl h1 => exact Or.inl (startsWithStr_trans h1 t)
    | inr h2 => exact Or.inr (ih h2)

theorem occursIn_append_left (pat t : Str) (h : occursIn pat t = true) :
    ∀ s : Str, occursIn pat (s ++ t) = true := by
  intro s
  induction s with
  | nil => exact h
  | cons c s ih =>
    show (startsWithStr pat (c :: (s ++ t)) || occursIn pat (s ++ t)) = true
    rw [Bool.or_eq_true]
    exact Or.inr ih

theorem occursIn_joinSep_mem (pat sep : Str) :
    ∀ lines : List Str, ∀ line ∈ lines, occursIn pat line = true →
      occursIn pat (joinSep sep lines) = true := by
  intro lines
  induction lines with
  | nil =>
    intro line h
    exact absurd h (List.not_mem_nil line)
  | cons x rest ih =>
    intro line hmem hline
    cases List.mem_cons.mp hmem with
    | inl heq =>
      rw [heq] at hline
      cases rest with
      | nil => exact hline
      | cons y r =>
        show occursIn pat ((x ++ sep) ++ joinSep sep (y :: r)) = true
        exact occursIn_append_right pat _ _
          (occursIn_append_right pat sep x hline)
    | inr hr =>
      cases rest with
      | nil => exact absurd hr (List.not_mem_nil line)
      | cons y r =>
        show occursIn pat ((x ++ sep) ++ joinSep sep (y :: r)) = true
        exact occursIn_append_left pat _ (ih line hr hline) (x ++ sep)

theorem joinSep_startsWith (sep pat t : Str) :
    ∀ rest : List Str,
      startsWithStr pat (joinSep sep ((pat ++ t) :: rest)) = true := by
  intro rest
  cases rest with
  | nil => exact startsWithStr_append2 pat t
  | cons y r =>
    show startsWithStr pat (((pat ++ t) ++ sep) ++ joinSep sep (y :: r)) = true
    exact startsWithStr_trans
      (startsWithStr_trans (startsWithStr_append2 pat t) sep) _

theorem optionMapList_isSome
    {f : CanvasModuleItem → Option SessionPageContext} :
    ∀ {l : List CanvasModuleItem},
      (∀ a ∈ l, (f a).isSome = true) → ∃ ys, optionMapList f l = some ys := by
  intro l
  induction l with
  | nil =>
    intro _
    exact ⟨[], rfl⟩
  | cons a l ih =>
    intro h
    obtain ⟨y, hy⟩ :=
      Option.isSome_iff_exists.mp (h a (List.mem_cons_self a l))
    obtain ⟨ys, hys⟩ := ih (fun b hb => h b (List.mem_cons_of_mem a hb))
    refine ⟨y :: ys, ?_⟩
    rw [optionMapList, hy, hys]

theorem pageItems_url (pageTitle : Str) (items : List CanvasModuleItem) :
    ∀ a ∈ pageItems pageTitle items, ∃ u, a.page_url = some u := by
  intro a ha
  unfold pageItems at ha
  have hpred := (List.mem_filter.mp ha).2
  simp only [Bool.and_eq_true] at hpred
  have hurl := hpred.1.1.1.2
  cases hu : a.page_url with
  | none =>
    rw [hu] at hurl
    exact Bool.noConfusion hurl
  | some u => exact ⟨u, rfl⟩

/-- C1 (counterexample): a selected module page whose body holds the
    out-of-range character reference `&#x110000;` makes `toPlainText` throw
    (`String.fromCodePoint` raises `RangeError` above `0x10FFFF`), so the
    pipeline rejects instead of producing a document. -/
theorem c1_counterexample :
    toPlainText "&#x110000;".data = none ∧
    buildNotesPure "Notes".data "S3".data
      [⟨1, "Bad".data, "Page".data, 1, some "bad".data⟩]
      (fun _ => "&#x110000;".data) = none :=
  ⟨by rfl, by rfl⟩

/-- C1 (amended): whenever `toPlainText` succeeds on every fetched body of
    the selected page items, the pipeline returns a document that starts
    with `<h2>` and contains the "Main Session Objective" and "Most Common
    Issues" sections; in particular the heuristics degrade to fallback text
    rather than failing, including on empty modules. -/
theorem c1_render_total_amended (pageTitle sessionName : Str)
    (items : List CanvasModuleItem) (fetch : Str → Str)
    (hok : ∀ item ∈ pageItems pageTitle items,
      ∀ u, item.page_url = some u → (toPlainText (fetch u)).isSome = true) :
    ∃ html : Str,
      buildNotesPure pageTitle sessionName items fetch = some html ∧
      startsWithStr "<h2>".data html = true ∧
      occursIn "Main Session Objective".data html = true ∧
      occursIn "Most Common Issues".data html = true := by
  have hall : ∀ a ∈ pageItems pageTitle items,
      (buildPageContext fetch a).isSome = true := by
    intro a ha
    obtain ⟨u, hu⟩ := pageItems_url pageTitle items a ha
    have htp := hok a ha u hu
    unfold buildPageContext
    rw [hu]
    show (match toPlainText (fetch u) with
        | none => (none : Option SessionPageContext)
        | some txt =>
          some ⟨a.title, u, a.position, fetch u, txt⟩).isSome = true
    cases htx : toPlainText (fetch u) with
    | none =>
      rw [htx] at htp
      exact Bool.noConfusion htp
    | some txt => rfl
  obtain ⟨ys, hys⟩ := optionMapList_isSome hall
  refine ⟨renderTeacherNotesHtml pageTitle sessionName (sortByPos items)
    (sortPagesByPos ys), ?_, ?_, ?_, ?_⟩
  · unfold buildNotesPure buildModulePages
    rw [hys]
    rfl
  · unfold renderTeacherNotesHtml renderLines
    exact joinSep_startsWith "\n".data "<h2>".data
      (escapeHtml pageTitle ++ "</h2>".data) _
  · unfold renderTeacherNotesHtml
    exact occursIn_joinSep_mem "Main Session Objective".data "\n".data
      (renderLines pageTitle sessionName (sortByPos items)
        (sortPagesByPos ys))
      "<h3>Main Session Objective</h3>".data
      (by simp [renderLines, renderLinesTail]) (by decide)
  · unfold renderTeacherNotesHtml
    exact occursIn_joinSep_mem "Most Common Issues".data "\n".data
      (renderLines pageTitle sessionName (sortByPos items)
        (sortPagesByPos ys))
      "<h3>Most Common Issues</h3>".data
      (by simp [renderLines, renderLinesTail]) (by decide)

/-- Closed instance of the amended C1 theorem on the empty module. -/
theorem c1_render_total_amended_witness :
    ∃ html : Str,
      buildNotesPure "Notes".data "S3".data [] (fun _ => ([] : Str)) =
        some html ∧
      startsWithStr "<h2>".data html = true ∧
      occursIn "Main Session Objective".data html = true ∧
      occursIn "Most Common Issues".data html = true :=
  c1_render_total_amended "Notes".data "S3".data [] (fun _ => ([] : Str))
    (fun item h => absurd h (List.not_mem_nil item))

end CanvasNotes
